import Mathlib

/-!
# Verification of the trust-document-summarizer citation pipeline

A shallow embedding, in Lean 4, of the algorithmic core of the
`trust-document-summarizer` repository:

* `src/citation_validator.py` — `CitationValidator` (validation / auto-correction),
* `src/rag_generator.py` — citation-ID allocation in `RAGSummaryGenerator`,
* `src/semantic_extractor.py` — `deduplicate_facts`, `rank_facts_by_importance`,
* `src/smart_chunker.py` — `SmartChunker.chunk_document` and its helpers.

Python strings are modelled as `List Char` (`Text`); Python `dict`s that the
code iterates in insertion order are modelled as insertion-ordered association
lists; Python floats (confidence values, rapidfuzz scores) are modelled as
exact nonnegative fractions (`Score`, a numerator/denominator pair compared
by cross-multiplication) — the numbers manipulated here are small decimal
literals and ratios of string lengths, where exact fraction arithmetic
agrees with IEEE doubles for every comparison the claims exercise
(boundaries where it might not are noted locally).  The external `rapidfuzz` library calls
(`fuzz.partial_ratio`, `process.extractOne`) are modelled from the library's
documented semantics: normalized InDel (longest-common-subsequence) similarity
and optimal alignment of the shorter string inside the longer one.
-/

/-- Python `str` contents, as a list of characters. -/
abbrev Text := List Char

/-- The whitespace characters recognised by Python's `str.split()` /  `\s`
(for the ASCII texts this development manipulates). -/
def pyWs (c : Char) : Bool :=
  c = ' ' ∨ c = '\t' ∨ c = '\n' ∨ c = '\r' ∨ c = '\x0b' ∨ c = '\x0c'

/-- Helper for `pySplit`: accumulates the current word (reversed) while
scanning the text. -/
def pySplitAux : Text → Text → List Text
  | cur, [] => if cur = [] then [] else [cur.reverse]
  | cur, c :: rest =>
    if pyWs c then
      if cur = [] then pySplitAux [] rest else cur.reverse :: pySplitAux [] rest
    else
      pySplitAux (c :: cur) rest

/-- Python `str.split()` with no argument: split on runs of whitespace,
discarding empty pieces. -/
def pySplit (t : Text) : List Text := pySplitAux [] t

/-- `' '.join(words)`. -/
def joinSpace : List Text → Text
  | [] => []
  | [w] => w
  | w :: ws => w ++ ' ' :: joinSpace ws

/-- Python `str.lower()` (ASCII range; the texts handled here are ASCII). -/
def toLowerT (t : Text) : Text := t.map Char.toLower

/-- Python's substring test `needle in haystack`. -/
def containsSub (needle haystack : Text) : Bool :=
  (List.range (haystack.length + 1)).any fun i => needle.isPrefixOf (haystack.drop i)

/-- A `\w` character of the `re` module (ASCII range). -/
def isWordChar (c : Char) : Bool := c.isAlphanum ∨ c = '_'

/-- Keep the first occurrence of each element (canonical, insertion-ordered
model of a Python `set` built by successive insertions). -/
def dedupKeepFirstAux {α : Type} [DecidableEq α] : List α → List α → List α
  | _, [] => []
  | seen, x :: r =>
    if x ∈ seen then dedupKeepFirstAux seen r else x :: dedupKeepFirstAux (x :: seen) r

/-- Entry point of `dedupKeepFirstAux` with an empty `seen` set. -/
def dedupKeepFirst {α : Type} [DecidableEq α] (l : List α) : List α :=
  dedupKeepFirstAux [] l

/-- Python `d[k] = v` on an insertion-ordered dict: overwrite the existing
entry in place, else append at the end. -/
def assocSet {α β : Type} [DecidableEq α] : List (α × β) → α → β → List (α × β)
  | [], k, v => [(k, v)]
  | (k', v') :: t, k, v =>
    if k' = k then (k, v) :: t else (k', v') :: assocSet t k v

/-- Python `k in d` / `d[k]` on an insertion-ordered dict. -/
def pyLookup {α β : Type} [DecidableEq α] : List (α × β) → α → Option β
  | [], _ => none
  | (k', v) :: t, k => if k' = k then some v else pyLookup t k

/-- The keys of an association-list dict, in insertion order. -/
def keysOf {α β : Type} (l : List (α × β)) : List α := l.map Prod.fst

/-- Decimal rendering of a Python `int` (used in f-strings). -/
def intToText (i : Int) : Text := (toString i).data

/-- Python `f"{i:03d}"`: decimal digits zero-padded to width 3. -/
def pad3 (i : Nat) : Text :=
  let d := (toString i).data
  if d.length < 3 then List.replicate (3 - d.length) '0' ++ d else d

/-! ## Exact nonnegative fractions

Similarity scores and confidences are nonnegative reals in Python (floats);
they are modelled as exact fractions `num / den` compared by
cross-multiplication, which the kernel evaluates directly.  A fraction is
never normalized, and no claim compares two independently computed scores
for equality — scores are only ordered, or copied verbatim. -/

structure Score where
  num : Nat
  den : Nat
deriving DecidableEq

instance : OfNat Score n := ⟨⟨n, 1⟩⟩

instance : LT Score := ⟨fun a b => a.num * b.den < b.num * a.den⟩

instance : LE Score := ⟨fun a b => a.num * b.den ≤ b.num * a.den⟩

instance (a b : Score) : Decidable (a < b) :=
  inferInstanceAs (Decidable (a.num * b.den < b.num * a.den))

instance (a b : Score) : Decidable (a ≤ b) :=
  inferInstanceAs (Decidable (a.num * b.den ≤ b.num * a.den))

theorem Score.le_total (a b : Score) : a ≤ b ∨ b ≤ a :=
  Nat.le_total (a.num * b.den) (b.num * a.den)

theorem Score.le_of_not_le {a b : Score} (h : ¬ a ≤ b) : b ≤ a :=
  (Score.le_total b a).resolve_right h

/-- Multiplication of fractions (`fact.confidence * weight`). -/
def Score.mul (a b : Score) : Score := ⟨a.num * b.num, a.den * b.den⟩

/-- Python's binary `max` (returns the second argument only when it is
strictly larger). -/
def Score.max (a b : Score) : Score := if a < b then b else a

/-! ## Model of the `rapidfuzz` scoring functions

`fuzz.ratio` is the normalized InDel similarity
`100 * (|a| + |b| - dist) / (|a| + |b|)` where `dist` is the
insertion/deletion edit distance, and `fuzz.partial_ratio` is the best
`fuzz.ratio` over the optimal alignment of the shorter string inside the
longer one (maximum over contiguous substrings of the longer string). -/

/-- One row-update of the InDel-distance dynamic program: walks the
remaining `ys` together with the previous row (`prev`), carrying the value
just computed to the left (`left`). -/
def rowGo (c : Char) : List Char → List Nat → Nat → List Nat
  | [], _, _ => []
  | y :: ys, prev, left =>
    let diag := prev.headD 0
    let up := prev.tail.headD 0
    let v := if c = y then diag else 1 + min left up
    v :: rowGo c ys prev.tail v

/-- Compute the next full row of the InDel dynamic program from `prev`. -/
def stepRow (c : Char) (ys : List Char) (prev : List Nat) : List Nat :=
  let first := prev.headD 0 + 1
  first :: rowGo c ys prev first

/-- Insertion/deletion edit distance (no substitutions), by the standard
dynamic program. -/
def indelDist (xs ys : List Char) : Nat :=
  (xs.foldl (fun row c => stepRow c ys row) (List.range (ys.length + 1))).getLastD 0

/-- `fuzz.ratio`: normalized InDel similarity scaled to 0..100, i.e.
`100 * (|a| + |b| - dist) / (|a| + |b|)`. -/
def simScore (a b : Text) : Score :=
  let n := a.length + b.length
  if n = 0 then 100 else ⟨100 * (n - indelDist a b), n⟩

/-- All nonempty contiguous substrings of a text: the candidate alignments
for `fuzz.partial_ratio`. -/
def subSlices (t : Text) : List Text :=
  (List.range t.length).flatMap fun i =>
    (List.range (t.length - i)).map fun len => ((t.drop i).take (len + 1))

/-- Maximum of a list of scores (0 when empty). -/
def maxScore (l : List Score) : Score := l.foldl Score.max 0

/-- `fuzz.partial_ratio`: best `fuzz.ratio` of the shorter string against the
contiguous substrings of the longer one (its optimal alignment); two empty
strings score 100 and one empty string scores 0, following the library's
empty-input convention. -/
def alignSim (a b : Text) : Score :=
  if a = [] ∧ b = [] then 100
  else if a.length ≤ b.length then maxScore ((subSlices b).map fun w => simScore a w)
  else maxScore ((subSlices a).map fun w => simScore b w)

/-! ## `CitationValidator._fuzzy_match_in_text` -/

/-- The cleaning step `' '.join(s.split()).lower()` used by
`_fuzzy_match_in_text`. -/
def fuzzyClean (t : Text) : Text := toLowerT (joinSpace (pySplit t))

/-- The start offsets of the sliding windows:
`range(0, len(haystack_clean) - needle_len + 1, 10)` (empty when the stop
bound is not positive). -/
def windowStarts (hayLen needleLen : Nat) : List Nat :=
  if hayLen + 1 ≤ needleLen then []
  else
    let stop := hayLen + 1 - needleLen
    (List.range ((stop + 9) / 10)).map (· * 10)

/-- The sliding-window loop of `_fuzzy_match_in_text`: each window is
`haystack_clean[i:i + needle_len + 20]`; the running best score is updated
and the loop breaks early once it exceeds 95. -/
def scanLoop (nc hc : Text) : List Nat → Score → Score
  | [], best => best
  | i :: rest, best =>
    let w := (hc.drop i).take (nc.length + 20)
    let best' := Score.max best (alignSim nc w)
    if (95 : Score) < best' then best' else scanLoop nc hc rest best'

/-- `CitationValidator._fuzzy_match_in_text` (the `threshold` parameter of the
Python signature is unused by the body and omitted): returns 0 for empty
inputs; cleans both texts; for a cleaned needle shorter than 20 characters
returns 100 on exact containment; otherwise slides a window across the
cleaned haystack taking the best `fuzz.partial_ratio`. -/
def fuzzyMatchInText (needle haystack : Text) : Score :=
  if needle = [] ∨ haystack = [] then 0
  else
    let nc := fuzzyClean needle
    let hc := fuzzyClean haystack
    if nc.length < 20 ∧ containsSub nc hc then 100
    else scanLoop nc hc (windowStarts hc.length nc.length) 0

/-! ## `re.split(r'[.!?]\s+', text)` — sentence splitting -/

/-- Whether a text starts with a whitespace character. -/
def headWs : Text → Bool
  | [] => false
  | c :: _ => pyWs c

/-- Scanner for `re.split(r'[.!?]\s+', text)`: a separator is a terminator
character followed by a maximal (greedy `\s+`) whitespace run; the pieces
between separators are returned (the current piece is accumulated
reversed).  Structural recursion on a fuel that starts at the text length:
every step consumes at least one character, so the zero-fuel fallback is
never reached (its value is immaterial). -/
def splitSentGo : Nat → Text → Text → List Text
  | _, cur, [] => [cur.reverse]
  | 0, cur, rest => [cur.reverse ++ rest]
  | fuel + 1, cur, c :: rest =>
    if (c = '.' ∨ c = '!' ∨ c = '?') ∧ headWs rest then
      cur.reverse :: splitSentGo fuel [] (rest.dropWhile pyWs)
    else splitSentGo fuel (c :: cur) rest

/-- `re.split(r'[.!?]\s+', text)`. -/
def splitSent (t : Text) : List Text := splitSentGo t.length [] t

/-! ## `rapidfuzz.process.extractOne` -/

/-- The scan of `process.extractOne(query, choices, scorer=fuzz.partial_ratio)`
over the remaining choices, keeping the first best-scoring choice
(only a strictly larger score replaces the current best). -/
def extractOneAux (q : Text) : List Text → Text × Score → Text × Score
  | [], best => best
  | s :: rest, best =>
    let sc := alignSim q s
    if best.2 < sc then extractOneAux q rest (s, sc) else extractOneAux q rest best

/-- `process.extractOne(query, choices, scorer=fuzz.partial_ratio)`: `none`
on an empty choice list, otherwise the first choice achieving the maximal
`fuzz.partial_ratio` against the query, with its score. -/
def extractOne (q : Text) : List Text → Option (Text × Score)
  | [] => none
  | s :: rest => some (extractOneAux q rest (s, alignSim q s))

/-! ## Data model of `citation_validator.py`

A citation entry is the dict
`{'page': int, 'text': str, 'type': str, 'confidence': float}` produced by
`RAGSummaryGenerator._create_citations`; `_correct_citation` may add the keys
`'corrected': True` and `'similarity': score`, modelled by the `corrected`
and `similarity` fields whose defaults stand for the absent keys.  A summary
is the artifact `{'meta': ..., 'summary': {'executive': ..., 'sections':
[{'content': ...}, ...]}, 'citations': {...}}`; only the fields the validator
reads or writes are modelled: `sections` keeps each section's `content`
string (the `id`/`title` keys are never read), and of `meta` only the
`citation_validation` record that `auto_correct_summary` writes. -/

structure Citation where
  page : Int
  text : Text
  type : Text
  confidence : Score
  corrected : Bool := false
  similarity : Option Score := none
deriving DecidableEq

structure Summary where
  executive : Text
  sections : List Text
  citations : List (Text × Citation)
  metaValidation : Option (Nat × Nat × Nat) := none
deriving DecidableEq

/-- The per-citation record built by `_validate_citation`. -/
structure ValidationDetail where
  is_valid : Bool := false
  exact_match : Bool := false
  fuzzy_score : Score := 0
  page_verified : Bool := false
  issues : List Text := []
  suggested_page : Option Int := none
deriving DecidableEq

/-- The report built by `validate_summary`.  `missing_citations` is populated
by iterating a Python `set` whose order is unspecified; the model fixes the
canonical first-occurrence order — counts and membership coincide with the
Python report. -/
structure Report where
  total_citations : Nat
  valid_citations : Nat
  invalid_citations : Nat
  orphaned_citations : List Text
  missing_citations : List Text
  corrected_citations : List (Text × Citation × Citation)
  validation_details : List (Text × ValidationDetail)
deriving DecidableEq

/-- The page index built by `CitationValidator.__init__`:
`page_index[page['page_number']] = page['text']` over the page list. -/
structure Page where
  page_number : Int
  text : Text
deriving DecidableEq

/-- `CitationValidator.__init__`: build the page index dict. -/
def buildPageIndex (pages : List Page) : List (Int × Text) :=
  pages.foldl (fun acc pg => assocSet acc pg.page_number pg.text) []

/-! ## `_extract_citation_references` -/

/-- Scanner for `re.findall(r'\{\{cite:(\w+)\}\}', text)`: at each position,
if the literal `{{cite:` starts here, a nonempty maximal `\w+` run follows
and then the literal `}}`, record the run and continue after the match;
otherwise advance one character. -/
def findCitesGo : Nat → Text → List Text
  | _, [] => []
  | 0, _ => []
  | fuel + 1, c :: rest =>
    let l := c :: rest
    if "\x7b\x7bcite:".data.isPrefixOf l then
      let rest2 := (l.drop 7).dropWhile isWordChar
      if (l.drop 7).takeWhile isWordChar ≠ [] ∧ "\x7d\x7d".data.isPrefixOf rest2 then
        (l.drop 7).takeWhile isWordChar :: findCitesGo fuel (rest2.drop 2)
      else findCitesGo fuel rest
    else findCitesGo fuel rest

/-- Entry point of the marker scanner, with enough fuel for the whole
text. -/
def findCites (t : Text) : List Text := findCitesGo t.length t

/-- `_extract_citation_references`: all `{{cite:ID}}` markers of the
executive text and of every section's content, as a set (canonical
first-occurrence order). -/
def extractCitationReferences (s : Summary) : List Text :=
  dedupKeepFirst (findCites s.executive ++ (s.sections.map findCites).flatten)

/-! ## `_find_text_in_document` -/

/-- The page loop of `_find_text_in_document`: track the best score and page;
a strictly better score replaces the current best, and scanning stops once
a score exceeds 95. -/
def findTextLoop (txt : Text) : List (Int × Text) → Score → Option Int → Score × Option Int
  | [], bs, bp => (bs, bp)
  | (p, t) :: rest, bs, bp =>
    let sc := fuzzyMatchInText txt t
    if bs < sc then
      if (95 : Score) < sc then (sc, some p) else findTextLoop txt rest sc (some p)
    else findTextLoop txt rest bs bp

/-- `_find_text_in_document`: the best-matching page, if its score
exceeds 80. -/
def findTextInDocument (pageIdx : List (Int × Text)) (txt : Text) : Option Int :=
  let r := findTextLoop txt pageIdx 0 none
  if (80 : Score) < r.1 then r.2 else none

/-! ## `_validate_citation` -/

/-- `_validate_citation`, following the source's control flow.  The issue
strings reproduce the Python f-strings. -/
def validateCitation (pageIdx : List (Int × Text)) (citeId : Text) (c : Citation) :
    ValidationDetail :=
  let _ := citeId  -- stored in the Python dict's 'id' key only
  if c.text = [] then { issues := ["Empty citation text".data] }
  else
    match pyLookup pageIdx c.page with
    | some pageText =>
      if containsSub c.text pageText then
        { page_verified := true, exact_match := true, is_valid := true, fuzzy_score := 100 }
      else
        let score := fuzzyMatchInText c.text pageText
        if (80 : Score) < score then
          { page_verified := true, fuzzy_score := score, is_valid := true }
        else
          { page_verified := true, fuzzy_score := score,
            issues := ["Text not found on page ".data ++ intToText c.page] }
    | none =>
      let base : List Text := ["Page ".data ++ intToText c.page ++ " not found".data]
      match findTextInDocument pageIdx c.text with
      | some p =>
        -- Python `if found_page:` — a 0 page number is falsy
        if p ≠ 0 then
          { issues := base ++ ["Text actually on page ".data ++ intToText p],
            suggested_page := some p }
        else { issues := base }
      | none => { issues := base }

/-! ## `_correct_citation` -/

/-- `_correct_citation`: `None` for empty text; otherwise rewrite the page
when the text is found elsewhere (Python truthiness: a found page `0` does
not trigger the rewrite), else replace the text with the best-matching
sentence of the claimed page when that match scores above 70. -/
def correctCitation (pageIdx : List (Int × Text)) (c : Citation) : Option Citation :=
  if c.text = [] then none
  else
    let sentenceFix : Option Citation :=
      match pyLookup pageIdx c.page with
      | some pageText =>
        match extractOne c.text (splitSent pageText) with
        | some (s, sc) =>
          if (70 : Score) < sc then
            some { c with text := s, corrected := true, similarity := some sc }
          else none
        | none => none
      | none => none
    match findTextInDocument pageIdx c.text with
    | some p => if p ≠ 0 ∧ p ≠ c.page then some { c with page := p, corrected := true }
                else sentenceFix
    | none => sentenceFix

/-! ## `validate_summary` and `auto_correct_summary` -/

/-- The correction `validate_summary` records for one citation entry:
present exactly when the entry is invalid and `_correct_citation` succeeds
(the loop body `if validation['is_valid']: ... else: corrected = ...`). -/
def correctionFor (pageIdx : List (Int × Text)) (k : Text) (c : Citation) :
    Option Citation :=
  if (validateCitation pageIdx k c).is_valid then none else correctCitation pageIdx c

/-- The `corrected_citations` list assembled by the `validate_summary`
loop: one `{'id', 'original', 'corrected'}` record per invalid entry that
`_correct_citation` can repair, in entry order. -/
def correctionsOf (pageIdx : List (Int × Text)) (entries : List (Text × Citation)) :
    List (Text × Citation × Citation) :=
  entries.filterMap fun e =>
    (correctionFor pageIdx e.1 e.2).map fun c' => (e.1, e.2, c')

/-- `validate_summary`.  The single Python loop over `citations.items()`
appends to the report's independent fields; it is rendered as one
comprehension per field (same entries, same order). -/
def validateSummary (pageIdx : List (Int × Text)) (s : Summary) : Report :=
  let refs := extractCitationReferences s
  let entries := s.citations
  { total_citations := entries.length
    valid_citations := entries.countP fun e => (validateCitation pageIdx e.1 e.2).is_valid
    invalid_citations := entries.countP fun e => !(validateCitation pageIdx e.1 e.2).is_valid
    orphaned_citations := (keysOf entries).filter fun k => decide (k ∉ refs)
    missing_citations := refs.filter fun r => decide (r ∉ keysOf entries)
    corrected_citations := correctionsOf pageIdx entries
    validation_details := entries.map fun e => (e.1, validateCitation pageIdx e.1 e.2) }

/-- `auto_correct_summary`: deep-copy the summary, validate the original,
write every recorded correction into the copy's citations dict, delete the
orphaned ids from it, and store the `citation_validation` metadata
`(valid, corrected, removed)`.  Orphan deletion (`del d[k]`) is modelled by
filtering the key out (dict keys are unique). -/
def autoCorrectSummary (pageIdx : List (Int × Text)) (s : Summary) : Summary :=
  let report := validateSummary pageIdx s
  let cits1 := report.corrected_citations.foldl
    (fun acc corr => assocSet acc corr.1 corr.2.2) s.citations
  let cits2 := report.orphaned_citations.foldl
    (fun acc oid => if oid ∈ keysOf acc then acc.filter (fun e => decide (e.1 ≠ oid)) else acc)
    cits1
  { s with citations := cits2,
           metaValidation :=
             some (report.valid_citations, report.corrected_citations.length,
                   report.orphaned_citations.length) }

/-- `auto_correct_summary`, with the mutable state made explicit.  The Python
function receives the summary object and builds `corrected_summary` as a
`json` round-trip deep copy sharing no mutable substructure with the
argument; the first component tracks the value held by the caller's summary
object through each statement of the routine, the second the copy.
`validate_summary` only reads its argument (it assembles a fresh report
dict, and `_correct_citation` copies a citation dict before modifying it);
every subsequent assignment in the source writes into `corrected_summary`,
so each loop step below threads the argument's value unchanged alongside
the write to the copy. -/
def autoCorrectTraced (pageIdx : List (Int × Text)) (s : Summary) : Summary × Summary :=
  let copy : Summary := { executive := s.executive, sections := s.sections,
                          citations := s.citations, metaValidation := s.metaValidation }
  let st0 : Summary × Summary := (s, copy)
  let report := validateSummary pageIdx st0.1
  let st1 := report.corrected_citations.foldl
    (fun (st : Summary × Summary) corr =>
      (st.1, { st.2 with citations := assocSet st.2.citations corr.1 corr.2.2 })) st0
  let st2 := report.orphaned_citations.foldl
    (fun (st : Summary × Summary) oid =>
      let cits :=
        if oid ∈ keysOf st.2.citations then st.2.citations.filter (fun e => decide (e.1 ≠ oid))
        else st.2.citations
      (st.1, { st.2 with citations := cits })) st1
  let metaVal := some (report.valid_citations, report.corrected_citations.length,
    report.orphaned_citations.length)
  (st2.1, { st2.2 with metaValidation := metaVal })

/-! ## Citation-ID allocation in `rag_generator.py`

`RAGSummaryGenerator._create_citations` allocates ids `f"{i:03d}"` for
`i, fact in enumerate(facts, 1)`, and `generate_summary` merges each
section's citations into the run's dict with `citations.update(...)`.
The retrieval and prose-generation steps (vector search, LLM calls) do not
touch id allocation and are not modelled; the per-section retained fact
lists are the input. -/

/-- A `Fact` of `semantic_extractor.py` (the derived `fact_id` md5 hash is
external and never read by the claims' code paths, so it is not modelled;
the name `DocFact` is used because Mathlib already declares `Fact`). -/
structure DocFact where
  fact : Text
  page : Int
  char_position : Int
  fact_type : Text
  confidence : Score
  entities : List Text
  context : Text
deriving DecidableEq

/-- `_create_citations`: one citation per fact, ids `"001"`, `"002"`, …
restarting from 1 on every call, the citation text being the complete fact
statement. -/
def createCitations (facts : List DocFact) : List (Text × Citation) :=
  (List.enumFrom 1 facts).map fun fi =>
    (pad3 fi.1, { page := fi.2.page, text := fi.2.fact, type := fi.2.fact_type,
                  confidence := fi.2.confidence })

/-- The citation-merging loop of `generate_summary`: for each section,
`citations.update(section_data['citations'])` where the section's citations
are `_create_citations(relevant_facts[:15])`. -/
def mergeSectionCitations (sectionFacts : List (List DocFact)) : List (Text × Citation) :=
  sectionFacts.foldl
    (fun acc fs => (createCitations (fs.take 15)).foldl
      (fun acc' e => assocSet acc' e.1 e.2) acc)
    []

/-! ## `semantic_extractor.py`: deduplication and ranking -/

/-- The normalization `' '.join(fact.fact.lower().split())` used by
`deduplicate_facts`. -/
def normText (t : Text) : Text := joinSpace (pySplit (toLowerT t))

/-- The loop of `deduplicate_facts`, with the `seen_texts` set made
explicit: keep a fact iff its normalized statement has not been seen. -/
def dedupFactsAux (seen : List Text) : List DocFact → List DocFact
  | [] => []
  | f :: fs =>
    let n := normText f.fact
    if n ∈ seen then dedupFactsAux seen fs else f :: dedupFactsAux (n :: seen) fs

/-- `SemanticFactExtractor.deduplicate_facts`. -/
def deduplicateFacts (facts : List DocFact) : List DocFact := dedupFactsAux [] facts

/-- The `importance_weights` dict of `rank_facts_by_importance`
(`.get(fact_type, 0.5)`). -/
def importanceWeight (factType : Text) : Score :=
  if factType = "trust_creation".data then ⟨10, 10⟩
  else if factType = "trustee_appointment".data then ⟨9, 10⟩
  else if factType = "beneficiary_designation".data then ⟨9, 10⟩
  else if factType = "distribution".data then ⟨85, 100⟩
  else if factType = "trustee_power".data then ⟨8, 10⟩
  else if factType = "tax_provision".data then ⟨75, 100⟩
  else if factType = "condition".data then ⟨7, 10⟩
  else if factType = "provision".data then ⟨6, 10⟩
  else if factType = "termination".data then ⟨85, 100⟩
  else if factType = "authority_grant".data then ⟨7, 10⟩
  else if factType = "death_trigger".data then ⟨8, 10⟩
  else ⟨5, 10⟩

/-- The in-place update `fact.confidence = fact.confidence * weight`
performed on each fact by `rank_facts_by_importance`. -/
def scaleFact (f : DocFact) : DocFact :=
  { f with confidence := Score.mul f.confidence (importanceWeight f.fact_type) }

/-- Stable insertion step for a descending sort on `confidence`: the new
element goes before the first element whose confidence is not larger
(Python's stable `sorted(..., reverse=True)` keeps the original relative
order of ties). -/
def insertDesc (f : DocFact) : List DocFact → List DocFact
  | [] => [f]
  | g :: gs => if g.confidence ≤ f.confidence then f :: g :: gs else g :: insertDesc f gs

/-- Stable descending sort on `confidence`
(`sorted(facts, key=lambda f: f.confidence, reverse=True)`). -/
def sortFactsDesc : List DocFact → List DocFact
  | [] => []
  | f :: fs => insertDesc f (sortFactsDesc fs)

/-- `rank_facts_by_importance`, with the mutation made explicit: the loop
`for fact in facts: fact.confidence = fact.confidence * weight` overwrites
the `confidence` attribute of every fact object held by the caller's list,
and the function then returns a new list sorting those updated facts
descending by confidence.  The first component is the state of the caller's
list after the call; the second is the returned list. -/
def rankFactsByImportance (facts : List DocFact) : List DocFact × List DocFact :=
  let mutated := facts.map scaleFact
  (mutated, sortFactsDesc mutated)

/-! ## `smart_chunker.py`

`chunk_document` either chunks by semantic sections (when the first pages
show at least 3 section-boundary matches) or accumulates whole pages, then
adds context windows and runs a merge/split validation pass.  The compiled
20-pattern section regex is a parameter `M : Text → List (Nat × Nat)`
returning, like `finditer`, the non-overlapping leftmost match spans
`(start, end)` in order; the md5 chunk-id derivation is a parameter
`hashFn`.  Python float size bounds: `len ≤ max*1.2` is modelled exactly as
`10*len ≤ 12*max` (the IEEE product `max*1.2` differs from the rational one
only at the single boundary length, which no claim exercises) and
`len > max*1.5` exactly as `2*len > 3*max` (1.5 is an exact double). -/

structure ChunkerCfg where
  max_chunk_size : Nat := 15000
  overlap_size : Nat := 500
  min_chunk_size : Nat := 1000

/-- The `SmartChunker()` defaults. -/
def defaultCfg : ChunkerCfg := {}

structure DocumentChunk where
  chunk_id : Text
  text : Text
  pages : List Int
  start_page : Int
  end_page : Int
  start_char : Int
  end_char : Int
  chunk_type : Text
  section_headers : List Text
  context_before : Text
  context_after : Text
deriving DecidableEq

/-- Python `str.strip()`. -/
def pyStrip (t : Text) : Text := ((t.dropWhile pyWs).reverse.dropWhile pyWs).reverse

/-- `f"\n[Page {page_num}]\n"` (the tag prepended to page text). -/
def tagOnly (n : Int) : Text := "\n[Page ".data ++ intToText n ++ "]\n".data

/-- `f"\n[Page {page_num}]\n{page_text}\n"`. -/
def pageTagged (n : Int) (t : Text) : Text := tagOnly n ++ t ++ "\n".data

/-- `_create_chunk`. -/
def createChunk (hashFn : Text → Int → Text) (text : Text) (pages : List Int)
    (start_page : Int) (start_char : Int) (chunk_type : Text)
    (headers : List Text) : DocumentChunk :=
  { chunk_id := hashFn (text.take 100) start_page
    text := pyStrip text
    pages := pages
    start_page := start_page
    end_page := pages.getLastD start_page
    start_char := start_char
    end_char := start_char + text.length
    chunk_type := chunk_type
    section_headers := headers
    context_before := []
    context_after := [] }

/-- First match end of `re.compile(r'[.!?]\s+').finditer(text, pos)`:
scan for a terminator followed by whitespace at an index `≥ pos` and return
the end of the greedy `\s+` run. -/
def sentFromAux : Text → Nat → Option Nat
  | [], _ => none
  | c :: rest, i =>
    if (c = '.' ∨ c = '!' ∨ c = '?') ∧ headWs rest then
      some (i + 1 + (rest.takeWhile pyWs).length)
    else sentFromAux rest (i + 1)

/-- First sentence-separator match at or after `pos`. -/
def findSentFrom (t : Text) (pos : Nat) : Option Nat := sentFromAux (t.drop pos) pos

/-- Whether a text starts with a newline. -/
def headNl : Text → Bool
  | [] => false
  | c :: _ => c = '\n'

/-- First match end of `re.compile(r'\n\n+').finditer(text, pos)`. -/
def paraFromAux : Text → Nat → Option Nat
  | [], _ => none
  | c :: rest, i =>
    if c = '\n' ∧ headNl rest then
      some (i + 1 + (rest.takeWhile (fun d => d = '\n')).length)
    else paraFromAux rest (i + 1)

/-- First paragraph-separator match at or after `pos`. -/
def findParaFrom (t : Text) (pos : Nat) : Option Nat := paraFromAux (t.drop pos) pos

/-- `_get_overlap_text`. -/
def getOverlapText (cfg : ChunkerCfg) (t : Text) : Text :=
  if t.length ≤ cfg.overlap_size then t
  else
    let os := t.length - cfg.overlap_size
    match findSentFrom t os with
    | some e => pyStrip (t.drop e) ++ "\n".data
    | none =>
      match findParaFrom t os with
      | some e => pyStrip (t.drop e) ++ "\n".data
      | none => pyStrip (t.drop (t.length - cfg.overlap_size)) ++ "\n".data

/-- The running state of the `_chunk_by_pages` loop. -/
structure PagesState where
  chunks : List DocumentChunk
  curText : Text
  curPages : List Int
  curStartPage : Int
  curStartChar : Int
  total : Nat

/-- One page of `_chunk_by_pages`: accumulate the page if it fits, else
close the current chunk and start a new one seeded with the overlap tail. -/
def pagesStep (cfg : ChunkerCfg) (hashFn : Text → Int → Text)
    (st : PagesState) (pg : Page) : PagesState :=
  let ptext := pg.text
  let pnum := pg.page_number
  if st.curText.length + ptext.length ≤ cfg.max_chunk_size then
    { st with curText := st.curText ++ pageTagged pnum ptext,
              curPages := st.curPages ++ [pnum],
              total := st.total + ptext.length }
  else
    let chunks' :=
      if st.curText ≠ [] then
        st.chunks ++ [createChunk hashFn st.curText st.curPages st.curStartPage
          st.curStartChar "page".data []]
      else st.chunks
    let overlap := getOverlapText cfg st.curText
    { chunks := chunks', curText := overlap ++ pageTagged pnum ptext,
      curPages := [pnum], curStartPage := pnum, curStartChar := (st.total : Int),
      total := st.total + ptext.length }

/-- `_chunk_by_pages`. -/
def chunkByPages (cfg : ChunkerCfg) (hashFn : Text → Int → Text)
    (pages : List Page) : List DocumentChunk :=
  let st := pages.foldl (pagesStep cfg hashFn) ⟨[], [], [], 1, 0, 0⟩
  st.chunks ++
    (if st.curText ≠ [] then
      [createChunk hashFn st.curText st.curPages st.curStartPage st.curStartChar
        "page".data []]
    else [])

/-- The running state of the `_chunk_by_sections` loop. -/
structure SectionsState where
  chunks : List DocumentChunk
  curText : Text
  curPages : List Int
  curHeaders : List Text
  curStartPage : Int
  curStartChar : Int
  total : Nat

/-- The body of `for match in section_boundaries` in `_chunk_by_sections`,
threading `(state, last_pos)`; `totalBefore` is `total_chars` for the page
being processed. -/
def secMatchStep (cfg : ChunkerCfg) (hashFn : Text → Int → Text) (pnum : Int)
    (ptext : Text) (totalBefore : Nat) (acc : SectionsState × Nat)
    (m : Nat × Nat) : SectionsState × Nat :=
  let st := acc.1
  let lastPos := acc.2
  let ms := m.1
  let me := m.2
  let before := (ptext.drop lastPos).take (ms - lastPos)
  let st1 :=
    if pyStrip before ≠ [] then
      if st.curText.length + before.length ≤ cfg.max_chunk_size then
        { st with curText := st.curText ++ before }
      else
        let chunks' :=
          if st.curText ≠ [] then
            st.chunks ++ [createChunk hashFn st.curText st.curPages st.curStartPage
              st.curStartChar "semantic".data st.curHeaders]
          else st.chunks
        { st with chunks := chunks',
                  curText := before,
                  curPages := [pnum],
                  curStartPage := pnum,
                  curStartChar := (totalBefore : Int) + lastPos,
                  curHeaders := [] }
    else st
  let st2 :=
    if st1.curText ≠ [] ∧ cfg.min_chunk_size < st1.curText.length then
      { st1 with
        chunks := st1.chunks ++ [createChunk hashFn st1.curText st1.curPages
          st1.curStartPage st1.curStartChar "semantic".data st1.curHeaders],
        curText := [], curPages := [], curHeaders := [] }
    else st1
  let header := pyStrip ((ptext.drop ms).take (me - ms))
  -- the source line `current_pages = [page_num] if page_num not in
  -- current_pages else current_pages`
  let pages3 := if pnum ∈ st2.curPages then st2.curPages else [pnum]
  let st3 :=
    { st2 with
      curHeaders := st2.curHeaders ++ [header],
      curText := st2.curText ++ tagOnly pnum ++ ptext.drop ms,
      curPages := pages3,
      curStartPage := pnum, curStartChar := (totalBefore : Int) + ms }
  (st3, ptext.length)

/-- One page of `_chunk_by_sections`. -/
def secPageStep (cfg : ChunkerCfg) (hashFn : Text → Int → Text)
    (M : Text → List (Nat × Nat)) (st : SectionsState) (pg : Page) :
    SectionsState :=
  let ptext := pg.text
  let pnum := pg.page_number
  let bounds := M ptext
  let st' :=
    if bounds = [] then
      if st.curText.length + ptext.length ≤ cfg.max_chunk_size then
        { st with curText := st.curText ++ pageTagged pnum ptext,
                  curPages := st.curPages ++ [pnum] }
      else
        let chunks' :=
          if st.curText ≠ [] then
            st.chunks ++ [createChunk hashFn st.curText st.curPages st.curStartPage
              st.curStartChar "semantic".data st.curHeaders]
          else st.chunks
        { st with chunks := chunks',
                  curText := pageTagged pnum ptext,
                  curPages := [pnum],
                  curStartPage := pnum,
                  curStartChar := (st.total : Int),
                  curHeaders := [] }
    else
      let acc := bounds.foldl (secMatchStep cfg hashFn pnum ptext st.total) (st, 0)
      let stB := acc.1
      let lastPos := acc.2
      if lastPos < ptext.length then
        let remaining := ptext.drop lastPos
        let pagesR := if pnum ∈ stB.curPages then stB.curPages else stB.curPages ++ [pnum]
        if pyStrip remaining ≠ [] then
          { stB with curText := stB.curText ++ remaining, curPages := pagesR }
        else stB
      else stB
  { st' with total := st.total + ptext.length }

/-- `_chunk_by_sections`. -/
def chunkBySections (cfg : ChunkerCfg) (hashFn : Text → Int → Text)
    (M : Text → List (Nat × Nat)) (pages : List Page) : List DocumentChunk :=
  let st := pages.foldl (secPageStep cfg hashFn M) ⟨[], [], [], [], 1, 0, 0⟩
  st.chunks ++
    (if st.curText ≠ [] then
      [createChunk hashFn st.curText st.curPages st.curStartPage st.curStartChar
        "semantic".data st.curHeaders]
    else [])

/-- `" | ".join`-style joining used by `_summarize_chunk`. -/
def joinSep (sep : Text) : List Text → Text
  | [] => []
  | [w] => w
  | w :: ws => w ++ sep ++ joinSep sep ws

/-- `_summarize_chunk` (reads only `section_headers`, the page range and the
chunk text, never the context fields — so summarizing an already-updated
neighbour equals summarizing the original). -/
def summarizeChunk (c : DocumentChunk) : Text :=
  let parts0 : List Text :=
    if c.section_headers ≠ [] then
      ["Sections: ".data ++ joinSep ", ".data (c.section_headers.take 3)]
    else []
  let parts1 := parts0 ++
    ["Pages ".data ++ intToText c.start_page ++ "-".data ++ intToText c.end_page]
  let firstGood := ((splitSent c.text).take 5).find? fun s =>
    decide (20 < s.length) && !("[Page".data.isPrefixOf s)
  let parts2 := match firstGood with
    | some s => parts1 ++ [s.take 100]
    | none => parts1
  joinSep " | ".data parts2

/-- `_add_context_windows`: each chunk receives digests of its neighbours
(the loop mutates context fields only, which `_summarize_chunk` never
reads). -/
def addContextWindows (chunks : List DocumentChunk) : List DocumentChunk :=
  chunks.enum.map fun ic =>
    let i := ic.1
    let c := ic.2
    let c1 := if 0 < i then { c with context_before := summarizeChunk (chunks.getD (i - 1) c) }
              else c
    if i + 1 < chunks.length then { c1 with context_after := summarizeChunk (chunks.getD (i + 1) c) }
    else c1

/-- Scanner for `re.split(r'\n\n+', text)` (used by `_split_large_chunk`);
fueled like `splitSentGo`. -/
def paraSplitGo : Nat → Text → Text → List Text
  | _, cur, [] => [cur.reverse]
  | 0, cur, rest => [cur.reverse ++ rest]
  | fuel + 1, cur, c :: rest =>
    if c = '\n' ∧ headNl rest then
      cur.reverse :: paraSplitGo fuel [] (rest.dropWhile (fun d => d = '\n'))
    else paraSplitGo fuel (c :: cur) rest

/-- `re.split(r'\n\n+', text)`. -/
def paraSplit (t : Text) : List Text := paraSplitGo t.length [] t

/-- The loop body of `_split_large_chunk`: accumulate paragraphs until the
next one would overflow, then emit an overflow chunk. -/
def splitStep (cfg : ChunkerCfg) (hashFn : Text → Int → Text) (c : DocumentChunk)
    (acc : List DocumentChunk × Text) (para : Text) : List DocumentChunk × Text :=
  if acc.2.length + para.length ≤ cfg.max_chunk_size then
    (acc.1, acc.2 ++ para ++ "\n\n".data)
  else
    let subs' :=
      if acc.2 ≠ [] then
        acc.1 ++ [createChunk hashFn acc.2 c.pages c.start_page
          (c.start_char + acc.2.length) "overflow".data c.section_headers]
      else acc.1
    (subs', para ++ "\n\n".data)

/-- `_split_large_chunk`. -/
def splitLargeChunk (cfg : ChunkerCfg) (hashFn : Text → Int → Text)
    (c : DocumentChunk) : List DocumentChunk :=
  let r := (paraSplit c.text).foldl (splitStep cfg hashFn c) ([], [])
  let subs :=
    if r.2 ≠ [] then
      r.1 ++ [createChunk hashFn r.2 c.pages c.start_page
        (c.start_char + c.text.length - r.2.length) "overflow".data c.section_headers]
    else r.1
  if subs = [] then [c] else subs

/-- The merge performed by `_validate_chunks` on an undersized chunk and its
predecessor. -/
def mergeChunks (prev c : DocumentChunk) : DocumentChunk :=
  { prev with
    text := prev.text ++ "\n".data ++ c.text,
    pages := prev.pages ++ c.pages.filter (fun p => decide (p ∉ prev.pages)),
    end_page := c.end_page,
    end_char := c.end_char,
    section_headers := prev.section_headers ++ c.section_headers }

/-- The oversize check at the end of each `_validate_chunks` iteration
(`len > max_chunk_size * 1.5`, i.e. `2*len > 3*max`). -/
def sizeCheckStep (cfg : ChunkerCfg) (hashFn : Text → Int → Text)
    (validated : List DocumentChunk) (c : DocumentChunk) : List DocumentChunk :=
  if 3 * cfg.max_chunk_size < 2 * c.text.length then
    validated ++ splitLargeChunk cfg hashFn c
  else validated ++ [c]

/-- One iteration of `_validate_chunks`: merge an undersized chunk into the
previous one when the combined size stays under `max*1.2`, else fall through
to the oversize check. -/
def validateStep (cfg : ChunkerCfg) (hashFn : Text → Int → Text)
    (validated : List DocumentChunk) (c : DocumentChunk) : List DocumentChunk :=
  if c.text.length < cfg.min_chunk_size ∧ validated ≠ [] then
    match validated.getLast? with
    | some prev =>
      if 10 * (prev.text.length + c.text.length) ≤ 12 * cfg.max_chunk_size then
        validated.dropLast ++ [mergeChunks prev c]
      else sizeCheckStep cfg hashFn validated c
    | none => sizeCheckStep cfg hashFn validated c
  else sizeCheckStep cfg hashFn validated c

/-- `_validate_chunks`. -/
def validateChunks (cfg : ChunkerCfg) (hashFn : Text → Int → Text)
    (chunks : List DocumentChunk) : List DocumentChunk :=
  chunks.foldl (validateStep cfg hashFn) []

/-- `'\n'.join(...)` over the first 10 pages' texts, as in
`_analyze_structure`. -/
def joinNl (ts : List Text) : Text := joinSep "\n".data ts

/-- The `has_sections` decision of `_analyze_structure`: at least 3 section
matches over the first 10 pages. -/
def analyzeHasSections (M : Text → List (Nat × Nat)) (pages : List Page) : Bool :=
  3 ≤ (M (joinNl ((pages.take 10).map Page.text))).length

/-- `SmartChunker.chunk_document`. -/
def chunkDocument (cfg : ChunkerCfg) (hashFn : Text → Int → Text)
    (M : Text → List (Nat × Nat)) (pages : List Page) : List DocumentChunk :=
  let chunks :=
    if analyzeHasSections M pages then chunkBySections cfg hashFn M pages
    else chunkByPages cfg hashFn pages
  validateChunks cfg hashFn (addContextWindows chunks)

/-- A concrete instantiation of the section matcher `M`: `finditer` of the
`^WHEREAS\b` disjunct of `section_patterns` (with `re.MULTILINE`, `^`
matches at the start of the text and after each newline; `\b` holds when no
word character follows).  It agrees with the full compiled alternation on
texts in which no other disjunct matches anywhere, which is checked for
each concrete input it is applied to. -/
def wordBoundary : Text → Bool
  | [] => true
  | d :: _ => !isWordChar d

def matchWhereasGo : Nat → Text → Nat → Bool → List (Nat × Nat)
  | _, [], _, _ => []
  | 0, _, _, _ => []
  | fuel + 1, c :: rest, i, atLineStart =>
    let l := c :: rest
    if atLineStart ∧ "WHEREAS".data.isPrefixOf l ∧ wordBoundary (l.drop 7) then
      (i, i + 7) :: matchWhereasGo fuel (l.drop 7) (i + 7) false
    else matchWhereasGo fuel rest (i + 1) (c = '\n')

/-- `finditer` of `^WHEREAS\b` over a whole text. -/
def matchWhereas (t : Text) : List (Nat × Nat) := matchWhereasGo t.length t 0 true

/-! ## Lemmas about `deduplicate_facts` (claim C7) -/

theorem dedupFactsAux_not_seen :
    ∀ (seen : List Text) (l : List DocFact) (x : DocFact),
      x ∈ dedupFactsAux seen l → normText x.fact ∉ seen := by
  intro seen l
  induction l generalizing seen with
  | nil => intro x hx; simp [dedupFactsAux] at hx
  | cons f fs ih =>
    intro x hx
    by_cases h : normText f.fact ∈ seen
    · rw [dedupFactsAux, if_pos h] at hx
      exact ih seen x hx
    · rw [dedupFactsAux, if_neg h] at hx
      rw [List.mem_cons] at hx
      rcases hx with rfl | hx
      · exact h
      · have := ih (normText f.fact :: seen) x hx
        intro hmem
        exact this (List.mem_cons_of_mem _ hmem)

theorem dedupFactsAux_pairwise :
    ∀ (seen : List Text) (l : List DocFact),
      (dedupFactsAux seen l).Pairwise fun a b => normText a.fact ≠ normText b.fact := by
  intro seen l
  induction l generalizing seen with
  | nil => simp [dedupFactsAux]
  | cons f fs ih =>
    by_cases h : normText f.fact ∈ seen
    · rw [dedupFactsAux, if_pos h]; exact ih seen
    · rw [dedupFactsAux, if_neg h]
      refine List.Pairwise.cons ?_ (ih _)
      intro y hy heq
      have := dedupFactsAux_not_seen _ _ _ hy
      exact this (heq ▸ List.mem_cons_self _ _)

theorem dedupFactsAux_sublist :
    ∀ (seen : List Text) (l : List DocFact), List.Sublist (dedupFactsAux seen l) l := by
  intro seen l
  induction l generalizing seen with
  | nil => simp [dedupFactsAux]
  | cons f fs ih =>
    by_cases h : normText f.fact ∈ seen
    · rw [dedupFactsAux, if_pos h]
      exact (ih seen).trans (List.sublist_cons_self f fs)
    · rw [dedupFactsAux, if_neg h]
      exact (ih _).cons₂ f

theorem dedupFactsAux_mem_iff :
    ∀ (l : List DocFact) (seen : List Text) (x : DocFact),
      x ∈ dedupFactsAux seen l ↔
        ∃ l1 l2, l = l1 ++ x :: l2 ∧ normText x.fact ∉ seen ∧
          ∀ y ∈ l1, normText y.fact ≠ normText x.fact := by
  intro l
  induction l with
  | nil =>
    intro seen x
    constructor
    · intro hx; simp [dedupFactsAux] at hx
    · rintro ⟨l1, l2, habs, -, -⟩
      exact absurd habs (by simp)
  | cons f fs ih =>
    intro seen x
    by_cases h : normText f.fact ∈ seen
    · rw [dedupFactsAux, if_pos h]
      rw [ih seen x]
      constructor
      · rintro ⟨l1, l2, rfl, hns, hall⟩
        refine ⟨f :: l1, l2, rfl, hns, ?_⟩
        intro y hy
        rw [List.mem_cons] at hy
        rcases hy with rfl | hy
        · intro heq; rw [heq] at h; exact hns h
        · exact hall y hy
      · rintro ⟨l1, l2, hdec, hns, hall⟩
        cases l1 with
        | nil =>
          simp only [List.nil_append, List.cons.injEq] at hdec
          rw [hdec.1] at h
          exact absurd h hns
        | cons z l1' =>
          simp only [List.cons_append, List.cons.injEq] at hdec
          exact ⟨l1', l2, hdec.2, hns, fun y hy => hall y (List.mem_cons_of_mem _ hy)⟩
    · rw [dedupFactsAux, if_neg h]
      constructor
      · intro hx
        rw [List.mem_cons] at hx
        rcases hx with rfl | hx
        · exact ⟨[], fs, rfl, h, by simp⟩
        · obtain ⟨l1, l2, rfl, hns, hall⟩ := (ih _ x).mp hx
          refine ⟨f :: l1, l2, rfl, fun hmem => hns (List.mem_cons_of_mem _ hmem), ?_⟩
          intro y hy
          rw [List.mem_cons] at hy
          rcases hy with rfl | hy
          · intro heq
            refine hns ?_
            rw [heq]
            exact List.mem_cons_self _ _
          · exact hall y hy
      · rintro ⟨l1, l2, hdec, hns, hall⟩
        cases l1 with
        | nil =>
          simp only [List.nil_append, List.cons.injEq] at hdec
          rw [hdec.1]
          exact List.mem_cons_self _ _
        | cons z l1' =>
          simp only [List.cons_append, List.cons.injEq] at hdec
          refine List.mem_cons_of_mem _ ?_
          refine (ih _ x).mpr ⟨l1', l2, hdec.2, ?_, fun y hy => hall y (List.mem_cons_of_mem _ hy)⟩
          intro hmem
          rw [List.mem_cons] at hmem
          rcases hmem with heq | hmem
          · refine hall z (List.mem_cons_self _ _) ?_
            rw [← hdec.1, heq]
          · exact hns hmem

theorem dedupFactsAux_of_fresh :
    ∀ (l : List DocFact) (seen : List Text),
      (∀ x ∈ l, normText x.fact ∉ seen) →
      (l.Pairwise fun a b => normText a.fact ≠ normText b.fact) →
      dedupFactsAux seen l = l := by
  intro l
  induction l with
  | nil => intro seen _ _; rfl
  | cons f fs ih =>
    intro seen hfresh hpw
    have h : normText f.fact ∉ seen := hfresh f (List.mem_cons_self _ _)
    rw [dedupFactsAux, if_neg h]
    congr 1
    refine ih _ ?_ hpw.of_cons
    intro x hx hmem
    rw [List.mem_cons] at hmem
    rcases hmem with heq | hmem
    · exact (List.pairwise_cons.mp hpw).1 x hx heq.symm
    · exact hfresh x (List.mem_cons_of_mem _ hx) hmem

/-- C7: `deduplicate_facts` returns a list with pairwise-distinct normalized
statement texts, that is a sublist of the input in which an element is kept
exactly when it is the first input occurrence of its normalized text, and
`deduplicate_facts` is idempotent. -/
theorem deduplicateFacts_nodup_first_idem (facts : List DocFact) :
    ((deduplicateFacts facts).Pairwise fun a b => normText a.fact ≠ normText b.fact) ∧
    List.Sublist (deduplicateFacts facts) facts ∧
    (∀ x, x ∈ deduplicateFacts facts ↔
      ∃ l1 l2, facts = l1 ++ x :: l2 ∧ ∀ y ∈ l1, normText y.fact ≠ normText x.fact) ∧
    deduplicateFacts (deduplicateFacts facts) = deduplicateFacts facts := by
  refine ⟨dedupFactsAux_pairwise [] facts, dedupFactsAux_sublist [] facts, ?_, ?_⟩
  · intro x
    have h := dedupFactsAux_mem_iff facts [] x
    simpa using h
  · exact dedupFactsAux_of_fresh _ [] (by simp) (dedupFactsAux_pairwise [] facts)

/-! ## Lemmas about `rank_facts_by_importance` (claim C9) -/

theorem insertDesc_perm (f : DocFact) (l : List DocFact) :
    (insertDesc f l).Perm (f :: l) := by
  induction l with
  | nil => rfl
  | cons g gs ih =>
    rw [insertDesc]
    by_cases h : g.confidence ≤ f.confidence
    · rw [if_pos h]
    · rw [if_neg h]
      exact (ih.cons g).trans (List.Perm.swap f g gs)

theorem sortFactsDesc_perm (l : List DocFact) : (sortFactsDesc l).Perm l := by
  induction l with
  | nil => rfl
  | cons f fs ih =>
    rw [sortFactsDesc]
    exact (insertDesc_perm f (sortFactsDesc fs)).trans (ih.cons f)

theorem insertDesc_chain (f : DocFact) (l : List DocFact)
    (hl : l.Chain' fun a b => b.confidence ≤ a.confidence) :
    (insertDesc f l).Chain' fun a b => b.confidence ≤ a.confidence := by
  induction l with
  | nil => simp [insertDesc]
  | cons g gs ih =>
    rw [insertDesc]
    by_cases h : g.confidence ≤ f.confidence
    · rw [if_pos h]
      exact hl.cons h
    · rw [if_neg h]
      have htail : (insertDesc f gs).Chain' fun a b => b.confidence ≤ a.confidence :=
        ih hl.tail
      cases hgs : insertDesc f gs with
      | nil => simp
      | cons y ys =>
        refine List.Chain'.cons ?_ (hgs ▸ htail)
        have hy : y ∈ f :: gs := (insertDesc_perm f gs).mem_iff.mp (by rw [hgs]; simp)
        rw [List.mem_cons] at hy
        rcases hy with rfl | hy
        · exact Score.le_of_not_le h
        · cases gs with
          | nil => simp at hy
          | cons g' gs' =>
            -- insertDesc on g' :: gs' starts with f or with g'
            rw [insertDesc] at hgs
            by_cases h' : g'.confidence ≤ f.confidence
            · rw [if_pos h'] at hgs
              cases hgs
              exact Score.le_of_not_le h
            · rw [if_neg h'] at hgs
              cases hgs
              exact (List.chain'_cons.mp hl).1

theorem sortFactsDesc_chain (l : List DocFact) :
    (sortFactsDesc l).Chain' fun a b => b.confidence ≤ a.confidence := by
  induction l with
  | nil => simp [sortFactsDesc]
  | cons f fs ih => exact insertDesc_chain f _ ih

/-- The input fact used by the C9 counterexample: a `provision` fact with
pattern confidence 0.6. -/
def exFactC9 : DocFact :=
  { fact := "a".data, page := 1, char_position := 0, fact_type := "provision".data,
    confidence := ⟨6, 10⟩, entities := [], context := [] }

/-- C9, counterexample: `rank_facts_by_importance` does mutate the
`confidence` field of the caller's fact objects in place — after ranking a
single 0.6-confidence `provision` fact, the caller's list holds the fact
with confidence 0.36, not the original. -/
theorem rankFacts_mutates_input :
    (rankFactsByImportance [exFactC9]).1 ≠ [exFactC9] ∧
    (rankFactsByImportance [exFactC9]).1 =
      [{ exFactC9 with confidence := ⟨36, 100⟩ }] := by
  constructor
  · decide
  · decide

/-- C9, amended: `rank_facts_by_importance` overwrites each input fact's
`confidence` in place with `confidence * importance_weight(fact_type)`, and
returns those updated facts sorted descending by the updated confidence. -/
theorem rankFactsByImportance_spec (facts : List DocFact) :
    (rankFactsByImportance facts).1 = facts.map scaleFact ∧
    ((rankFactsByImportance facts).2.Perm (facts.map scaleFact)) ∧
    ((rankFactsByImportance facts).2.Chain' fun a b => b.confidence ≤ a.confidence) :=
  ⟨rfl, sortFactsDesc_perm _, sortFactsDesc_chain _⟩

/-! ## Claim C2: citation-ID allocation across sections -/

/-- A fact retained by the first section in the C2 failing input. -/
def exFactA : DocFact :=
  { fact := "alpha fact".data, page := 1, char_position := 0,
    fact_type := "provision".data, confidence := ⟨6, 10⟩, entities := [], context := [] }

/-- A fact retained by the second section in the C2 failing input. -/
def exFactB : DocFact :=
  { fact := "beta fact".data, page := 2, char_position := 5,
    fact_type := "condition".data, confidence := ⟨7, 10⟩, entities := [], context := [] }

set_option maxRecDepth 4000 in
/-- C2: `_create_citations` restarts its `enumerate(facts, 1)` counter on
every call, so two sections that each retain one fact both allocate the id
`"001"`, and the `citations.update(...)` merge overwrites the first
section's entry with the second's — the run's final mapping has lost
section 1's citation. -/
theorem sectionCitations_collide_overwrite :
    keysOf (createCitations [exFactA]) = ["001".data] ∧
    keysOf (createCitations [exFactB]) = ["001".data] ∧
    mergeSectionCitations [[exFactA], [exFactB]] =
      [("001".data,
        { page := exFactB.page, text := exFactB.fact, type := exFactB.fact_type,
          confidence := exFactB.confidence })] ∧
    pyLookup (mergeSectionCitations [[exFactA], [exFactB]]) "001".data ≠
      some { page := exFactA.page, text := exFactA.fact, type := exFactA.fact_type,
             confidence := exFactA.confidence } := by
  refine ⟨by decide, by decide, by decide, by decide⟩

/-! ## Claim C1: dangling markers after `auto_correct_summary` -/

/-- The single page of the C1 failing input. -/
def exPagesC1 : List Page := [⟨1, "x".data⟩]

/-- The C1 failing input: the executive text references `{{cite:099}}` but
the citations mapping is empty. -/
def exSummaryC1 : Summary :=
  { executive := "See {{cite:099}}.".data, sections := [], citations := [] }

set_option maxRecDepth 4000 in
/-- C1: `auto_correct_summary` never adds placeholder entries for missing
citations — on a summary whose prose references `{{cite:099}}` with no
`"099"` entry, the corrected summary still has no `"099"` key and
re-validation still reports `missing_citations = ["099"]` (while the
orphaned count is indeed 0). -/
theorem autoCorrect_leaves_missing_dangling :
    (validateSummary (buildPageIndex exPagesC1)
        (autoCorrectSummary (buildPageIndex exPagesC1) exSummaryC1)).missing_citations =
      ["099".data] ∧
    (validateSummary (buildPageIndex exPagesC1)
        (autoCorrectSummary (buildPageIndex exPagesC1) exSummaryC1)).orphaned_citations = [] ∧
    pyLookup (autoCorrectSummary (buildPageIndex exPagesC1) exSummaryC1).citations
      "099".data = none := by
  refine ⟨by decide, by decide, by decide⟩

/-! ## Claim C6: fuzzy matching of short citation texts -/

/-- C6 counterexample needle: 10 cleaned characters, not a substring of the
haystack. -/
def exNeedleC6 : Text := "abcdefghij".data

/-- C6 counterexample haystack. -/
def exHayC6 : Text := "abcdefghixj".data

set_option maxRecDepth 40000 in
/-- C6, counterexample: a cleaned citation text shorter than 20 characters
that is not an exact substring of the page's cleaned text is still accepted
by `_fuzzy_match_in_text` — the sliding-window partial-ratio scan also runs
for short texts and here scores 2000/21 ≈ 95.2 > 80. -/
theorem shortText_slidingWindow_accepts :
    (fuzzyClean exNeedleC6).length < 20 ∧
    containsSub (fuzzyClean exNeedleC6) (fuzzyClean exHayC6) = false ∧
    (80 : Score) < fuzzyMatchInText exNeedleC6 exHayC6 ∧
    (validateCitation (buildPageIndex [⟨1, exHayC6⟩]) "001".data
      { page := 1, text := exNeedleC6, type := "t".data,
        confidence := ⟨1, 1⟩ }).is_valid = true := by
  refine ⟨by decide, by decide, by decide, by decide⟩

/-- C6, amended: for a nonempty needle and haystack whose cleaned needle is
shorter than 20 characters, exact containment returns 100 immediately, but a
non-contained short needle falls through to the same sliding-window scan
used for long texts (so short texts can also be accepted via partial-ratio
scores above 80). -/
theorem fuzzyMatch_short_text_paths (needle haystack : Text)
    (h1 : needle ≠ []) (h2 : haystack ≠ [])
    (h3 : (fuzzyClean needle).length < 20) :
    (containsSub (fuzzyClean needle) (fuzzyClean haystack) = true →
      fuzzyMatchInText needle haystack = 100) ∧
    (containsSub (fuzzyClean needle) (fuzzyClean haystack) = false →
      fuzzyMatchInText needle haystack =
        scanLoop (fuzzyClean needle) (fuzzyClean haystack)
          (windowStarts (fuzzyClean haystack).length (fuzzyClean needle).length) 0) := by
  have hne : ¬ (needle = [] ∨ haystack = []) := by
    rintro (h | h) <;> [exact h1 h; exact h2 h]
  constructor
  · intro hc
    rw [fuzzyMatchInText, if_neg hne, if_pos ⟨h3, hc⟩]
  · intro hc
    rw [fuzzyMatchInText, if_neg hne, if_neg]
    rintro ⟨-, hcont⟩
    rw [hc] at hcont
    exact Bool.false_ne_true hcont

/-- Witness for `fuzzyMatch_short_text_paths` at a concrete contained short
needle. -/
theorem fuzzyMatch_short_text_paths_witness :
    "ab".data ≠ ([] : Text) ∧ "ab cd".data ≠ ([] : Text) ∧
    (fuzzyClean "ab".data).length < 20 ∧
    fuzzyMatchInText "ab".data "ab cd".data = 100 :=
  ⟨by decide, by decide, by decide,
    (fuzzyMatch_short_text_paths "ab".data "ab cd".data (by decide) (by decide)
      (by decide)).1 (by decide)⟩

/-! ## Association-list lemmas -/

theorem keysOf_assocSet {α β : Type} [DecidableEq α] (l : List (α × β)) (k : α) (v : β) :
    keysOf (assocSet l k v) = if k ∈ keysOf l then keysOf l else keysOf l ++ [k] := by
  induction l with
  | nil => simp [assocSet, keysOf]
  | cons e t ih =>
    obtain ⟨k', v'⟩ := e
    by_cases h : k' = k
    · subst h
      simp [assocSet, keysOf]
    · rw [assocSet, if_neg h]
      simp only [keysOf, List.map_cons] at ih ⊢
      rw [ih]
      by_cases hm : k ∈ List.map Prod.fst t
      · rw [if_pos hm, if_pos (List.mem_cons_of_mem _ hm)]
      · rw [if_neg hm, if_neg ?_]
        · simp
        · intro hc
          rcases List.mem_cons.mp hc with heq | hmem
          · exact h heq.symm
          · exact hm hmem

theorem keysOf_assocSet_nodup {α β : Type} [DecidableEq α] (l : List (α × β)) (k : α)
    (v : β) (h : (keysOf l).Nodup) : (keysOf (assocSet l k v)).Nodup := by
  rw [keysOf_assocSet]
  by_cases hm : k ∈ keysOf l
  · rwa [if_pos hm]
  · rw [if_neg hm]
    rw [List.nodup_append]
    exact ⟨h, List.nodup_singleton k, by simpa using hm⟩

theorem buildPageIndex_keys_nodup (pages : List Page) :
    (keysOf (buildPageIndex pages)).Nodup := by
  have h : ∀ (ps : List Page) (acc : List (Int × Text)), (keysOf acc).Nodup →
      (keysOf (ps.foldl (fun a pg => assocSet a pg.page_number pg.text) acc)).Nodup := by
    intro ps
    induction ps with
    | nil => intro acc h; exact h
    | cons p pt ih =>
      intro acc hacc
      exact ih _ (keysOf_assocSet_nodup _ _ _ hacc)
  exact h pages [] (by simp [keysOf])

theorem pyLookup_of_mem {α β : Type} [DecidableEq α] {l : List (α × β)} {k : α} {v : β}
    (hnd : (keysOf l).Nodup) (hmem : (k, v) ∈ l) : pyLookup l k = some v := by
  induction l with
  | nil => simp at hmem
  | cons e t ih =>
    obtain ⟨k', v'⟩ := e
    rw [List.mem_cons] at hmem
    rcases hmem with heq | hmem
    · rw [Prod.mk.injEq] at heq
      rw [pyLookup, if_pos heq.1.symm, heq.2]
    · rw [pyLookup]
      by_cases h : k' = k
      · subst h
        exfalso
        have : k' ∈ keysOf t := List.mem_map_of_mem Prod.fst hmem
        simp only [keysOf, List.map_cons, List.nodup_cons] at hnd
        exact hnd.1 this
      · rw [if_neg h]
        simp only [keysOf, List.map_cons, List.nodup_cons] at hnd
        exact ih hnd.2 hmem

theorem mem_of_pyLookup {α β : Type} [DecidableEq α] {l : List (α × β)} {k : α} {v : β}
    (h : pyLookup l k = some v) : (k, v) ∈ l := by
  induction l with
  | nil => simp [pyLookup] at h
  | cons e t ih =>
    obtain ⟨k', v'⟩ := e
    rw [pyLookup] at h
    by_cases heq : k' = k
    · rw [if_pos heq] at h
      subst heq
      cases h
      exact List.mem_cons_self _ _
    · rw [if_neg heq] at h
      exact List.mem_cons_of_mem _ (ih h)

/-! ## Specification lemmas for the validator's search helpers -/

theorem findTextLoop_spec (txt : Text) (idx : List (Int × Text)) :
    ∀ (l : List (Int × Text)) (bs : Score) (bp : Option Int),
      (∀ p, bp = some p → ∃ t, (p, t) ∈ idx ∧ fuzzyMatchInText txt t = bs) →
      (∀ e ∈ l, e ∈ idx) →
      ∀ p, (findTextLoop txt l bs bp).2 = some p →
        ∃ t, (p, t) ∈ idx ∧ fuzzyMatchInText txt t = (findTextLoop txt l bs bp).1 := by
  intro l
  induction l with
  | nil =>
    intro bs bp hinv _ p hp
    exact hinv p hp
  | cons e rest ih =>
    intro bs bp hinv hsub p hp
    obtain ⟨q, t⟩ := e
    rw [findTextLoop] at hp ⊢
    by_cases h1 : bs < fuzzyMatchInText txt t
    · rw [if_pos h1] at hp ⊢
      by_cases h2 : (95 : Score) < fuzzyMatchInText txt t
      · rw [if_pos h2] at hp ⊢
        cases hp
        exact ⟨t, hsub _ (List.mem_cons_self _ _), rfl⟩
      · rw [if_neg h2] at hp ⊢
        refine ih _ _ ?_ (fun e he => hsub e (List.mem_cons_of_mem _ he)) p hp
        intro p' hp'
        cases hp'
        exact ⟨t, hsub _ (List.mem_cons_self _ _), rfl⟩
    · rw [if_neg h1] at hp ⊢
      exact ih _ _ hinv (fun e he => hsub e (List.mem_cons_of_mem _ he)) p hp

theorem findTextInDocument_spec {idx : List (Int × Text)} {txt : Text} {p : Int}
    (h : findTextInDocument idx txt = some p) :
    ∃ t, (p, t) ∈ idx ∧ (80 : Score) < fuzzyMatchInText txt t := by
  rw [findTextInDocument] at h
  by_cases h80 : (80 : Score) < (findTextLoop txt idx 0 none).1
  · rw [if_pos h80] at h
    obtain ⟨t, hmem, hsc⟩ :=
      findTextLoop_spec txt idx idx 0 none (by intro p' hp'; cases hp')
        (fun e he => he) p h
    exact ⟨t, hmem, hsc ▸ h80⟩
  · rw [if_neg h80] at h
    cases h

theorem splitSentGo_piece_sub :
    ∀ (fuel : Nat) (cur rest : Text) (x : Text),
      x ∈ splitSentGo fuel cur rest → x <:+: (cur.reverse ++ rest) := by
  intro fuel
  induction fuel with
  | zero =>
    intro cur rest x hx
    cases rest with
    | nil =>
      simp only [splitSentGo, List.mem_singleton] at hx
      subst hx
      simp
    | cons c r =>
      simp only [splitSentGo, List.mem_singleton] at hx
      subst hx
      simp
  | succ fuel ih =>
    intro cur rest x hx
    cases rest with
    | nil =>
      simp only [splitSentGo, List.mem_singleton] at hx
      subst hx
      simp
    | cons c r =>
      rw [splitSentGo] at hx
      by_cases hsep : (c = '.' ∨ c = '!' ∨ c = '?') ∧ headWs r
      · rw [if_pos hsep] at hx
        rw [List.mem_cons] at hx
        rcases hx with rfl | hx
        · exact (List.prefix_append cur.reverse (c :: r)).isInfix
        · have h1 := ih [] (r.dropWhile pyWs) x hx
          simp only [List.reverse_nil, List.nil_append] at h1
          have h2 : List.IsSuffix (r.dropWhile pyWs) r := List.dropWhile_suffix pyWs
          have h3 : List.IsSuffix r (cur.reverse ++ c :: r) := by
            refine ⟨cur.reverse ++ [c], ?_⟩
            simp
          exact h1.trans ((h2.trans h3).isInfix)
      · rw [if_neg hsep] at hx
        have h1 := ih (c :: cur) r x hx
        simpa using h1

theorem splitSent_piece_sub {t x : Text} (hx : x ∈ splitSent t) : x <:+: t := by
  have h := splitSentGo_piece_sub t.length [] t x hx
  simpa using h

theorem containsSub_of_part {n h : Text} (hinf : n <:+: h) : containsSub n h = true := by
  obtain ⟨s, r, hsr⟩ := hinf
  rw [containsSub, List.any_eq_true]
  refine ⟨s.length, ?_, ?_⟩
  · rw [List.mem_range]
    have : s.length ≤ h.length := by
      rw [← hsr]
      simp only [List.length_append]
      omega
    omega
  · rw [← hsr, List.append_assoc, List.drop_left]
    exact List.isPrefixOf_iff_prefix.mpr ⟨r, rfl⟩

theorem extractOneAux_mem (q : Text) :
    ∀ (l : List Text) (best : Text × Score),
      (extractOneAux q l best).1 = best.1 ∨ (extractOneAux q l best).1 ∈ l := by
  intro l
  induction l with
  | nil => intro best; exact Or.inl rfl
  | cons s rest ih =>
    intro best
    rw [extractOneAux]
    by_cases h : best.2 < alignSim q s
    · rw [if_pos h]
      rcases ih (s, alignSim q s) with h1 | h1
      · exact Or.inr (h1 ▸ List.mem_cons_self _ _)
      · exact Or.inr (List.mem_cons_of_mem _ h1)
    · rw [if_neg h]
      rcases ih best with h1 | h1
      · exact Or.inl h1
      · exact Or.inr (List.mem_cons_of_mem _ h1)

theorem extractOne_mem {q : Text} {l : List Text} {r : Text × Score}
    (h : extractOne q l = some r) : r.1 ∈ l := by
  cases l with
  | nil => cases h
  | cons s rest =>
    rw [extractOne] at h
    cases h
    rcases extractOneAux_mem q rest (s, alignSim q s) with h1 | h1
    · exact h1 ▸ List.mem_cons_self _ _
    · exact List.mem_cons_of_mem _ h1

/-! ## Validity of corrected citations -/

theorem validateCitation_valid_of_page (pageIdx : List (Int × Text)) (k : Text)
    (c : Citation) (pageText : Text) (htext : c.text ≠ [])
    (hlk : pyLookup pageIdx c.page = some pageText)
    (hok : containsSub c.text pageText = true ∨
      (80 : Score) < fuzzyMatchInText c.text pageText) :
    (validateCitation pageIdx k c).is_valid = true := by
  by_cases hc : containsSub c.text pageText = true
  · simp [validateCitation, htext, hlk, hc]
  · rcases hok with hok | hok
    · exact absurd hok hc
    · simp [validateCitation, htext, hlk, hc, hok]

theorem validateCitation_valid_of_pageFix {pageIdx : List (Int × Text)} {k : Text}
    {c : Citation} {p : Int} (hnd : (keysOf pageIdx).Nodup) (htext : c.text ≠ [])
    (hfind : findTextInDocument pageIdx c.text = some p) :
    (validateCitation pageIdx k { c with page := p, corrected := true }).is_valid = true := by
  obtain ⟨t, hmem, hsc⟩ := findTextInDocument_spec hfind
  exact validateCitation_valid_of_page pageIdx k _ t htext
    (pyLookup_of_mem hnd hmem) (Or.inr hsc)

theorem validateCitation_valid_of_sentenceFix {pageIdx : List (Int × Text)} {k : Text}
    {c : Citation} {pageText s' : Text} {sc : Score}
    (hlk : pyLookup pageIdx c.page = some pageText)
    (hs : s' ∈ splitSent pageText) (hne : s' ≠ []) :
    (validateCitation pageIdx k
      { c with text := s', corrected := true, similarity := some sc }).is_valid = true := by
  exact validateCitation_valid_of_page pageIdx k _ pageText hne hlk
    (Or.inl (containsSub_of_part (splitSent_piece_sub hs)))

/-- Case analysis of a successful `_correct_citation`. -/
theorem correctCitation_cases {pageIdx : List (Int × Text)} {c c' : Citation}
    (h : correctCitation pageIdx c = some c') :
    c.text ≠ [] ∧
    ((∃ p, findTextInDocument pageIdx c.text = some p ∧ p ≠ 0 ∧ p ≠ c.page ∧
        c' = { c with page := p, corrected := true }) ∨
     (∃ pageText s sc, pyLookup pageIdx c.page = some pageText ∧
        extractOne c.text (splitSent pageText) = some (s, sc) ∧ (70 : Score) < sc ∧
        c' = { c with text := s, corrected := true, similarity := some sc })) := by
  by_cases htext : c.text = []
  · rw [correctCitation, if_pos htext] at h
    cases h
  refine ⟨htext, ?_⟩
  rw [correctCitation, if_neg htext] at h
  simp only [] at h
  split at h
  · rename_i p heq
    split at h
    · rename_i hcond
      cases h
      exact Or.inl ⟨p, heq, hcond.1, hcond.2, rfl⟩
    · -- fell through to the sentence branch
      split at h
      · rename_i pageText hlk
        split at h
        · rename_i r sTxt sc hex
          split at h
          · rename_i hsc
            cases h
            exact Or.inr ⟨pageText, sTxt, sc, hlk, hex, hsc, rfl⟩
          · cases h
        · cases h
      · cases h
  · split at h
    · rename_i pageText hlk
      split at h
      · rename_i r sTxt sc hex
        split at h
        · rename_i hsc
          cases h
          exact Or.inr ⟨pageText, sTxt, sc, hlk, hex, hsc, rfl⟩
        · cases h
      · cases h
    · cases h

/-- A citation produced by a successful `_correct_citation` needs no further
correction: it is either valid on its (possibly rewritten) page, or an
empty-sentence replacement that `_correct_citation` refuses to touch. -/
theorem correctionFor_of_corrected {pageIdx : List (Int × Text)} {k : Text}
    {c c' : Citation} (hnd : (keysOf pageIdx).Nodup)
    (h : correctCitation pageIdx c = some c') :
    correctionFor pageIdx k c' = none := by
  obtain ⟨htext, hcase⟩ := correctCitation_cases h
  rcases hcase with ⟨p, hfind, -, -, rfl⟩ | ⟨pageText, sTxt, sc, hlk, hex, hsc, rfl⟩
  · rw [correctionFor, if_pos]
    exact validateCitation_valid_of_pageFix hnd htext hfind
  · by_cases hse : sTxt = []
    · subst hse
      simp [correctionFor, validateCitation, correctCitation]
    · rw [correctionFor, if_pos]
      exact validateCitation_valid_of_sentenceFix hlk (extractOne_mem hex) hse

/-! ## Characterizing the citation dict after `auto_correct_summary` -/

/-- The net effect of the correction loop on one entry: replace the value by
its correction when one was recorded. -/
def applyCorrection (pageIdx : List (Int × Text)) (e : Text × Citation) :
    Text × Citation :=
  (e.1, (correctionFor pageIdx e.1 e.2).getD e.2)

theorem keysOf_map_applyCorrection (pageIdx : List (Int × Text))
    (l : List (Text × Citation)) :
    keysOf (l.map (applyCorrection pageIdx)) = keysOf l := by
  induction l with
  | nil => rfl
  | cons e t ih =>
    simp only [keysOf, List.map_cons] at ih ⊢
    rw [ih]
    rfl

theorem assocSet_append_fresh {α β : Type} [DecidableEq α] (pre : List (α × β))
    (k : α) (v c : β) (t : List (α × β)) (hk : k ∉ keysOf pre) :
    assocSet (pre ++ (k, c) :: t) k v = pre ++ (k, v) :: t := by
  induction pre with
  | nil => simp [assocSet]
  | cons e pre' ih =>
    obtain ⟨k', v'⟩ := e
    have hne : k' ≠ k := by
      intro hc
      refine hk ?_
      rw [hc]
      exact List.mem_cons_self _ _
    have hk' : k ∉ keysOf pre' := fun hc => hk (List.mem_cons_of_mem _ hc)
    rw [List.cons_append, assocSet, if_neg hne, ih hk', List.cons_append]

theorem foldl_corrections (pageIdx : List (Int × Text)) :
    ∀ (cits pre : List (Text × Citation)), (keysOf (pre ++ cits)).Nodup →
      (correctionsOf pageIdx cits).foldl (fun acc corr => assocSet acc corr.1 corr.2.2)
          (pre ++ cits)
        = pre ++ cits.map (applyCorrection pageIdx) := by
  intro cits
  induction cits with
  | nil => intro pre _; simp [correctionsOf]
  | cons e t ih =>
    intro pre hnd
    obtain ⟨k, c⟩ := e
    have hkpre : k ∉ keysOf pre := by
      rw [keysOf, List.map_append] at hnd
      have hd := (List.nodup_append.mp hnd).2.2
      intro hc
      exact hd hc (List.mem_map_of_mem Prod.fst (List.mem_cons_self (k, c) t))
    cases hcf : correctionFor pageIdx k c with
    | none =>
      rw [correctionsOf, List.filterMap_cons]
      simp only [hcf, Option.map_none']
      have heq : pre ++ (k, c) :: t = (pre ++ [(k, c)]) ++ t := by simp
      rw [heq]
      have hres := ih (pre ++ [(k, c)]) (by rw [← heq]; exact hnd)
      rw [correctionsOf] at hres
      rw [hres]
      simp [applyCorrection, hcf]
    | some c' =>
      rw [correctionsOf, List.filterMap_cons]
      simp only [hcf, Option.map_some']
      rw [List.foldl_cons]
      have hset : assocSet (pre ++ (k, c) :: t) k c' = pre ++ (k, c') :: t :=
        assocSet_append_fresh pre k c' c t hkpre
      rw [hset]
      have heq : pre ++ (k, c') :: t = (pre ++ [(k, c')]) ++ t := by simp
      rw [heq]
      have hnd' : (keysOf ((pre ++ [(k, c')]) ++ t)).Nodup := by
        have : keysOf ((pre ++ [(k, c')]) ++ t) = keysOf (pre ++ (k, c) :: t) := by
          simp [keysOf]
        rw [this]
        exact hnd
      have hres := ih (pre ++ [(k, c')]) hnd'
      rw [correctionsOf] at hres
      rw [hres]
      simp [applyCorrection, hcf]

theorem foldl_orphan_filter :
    ∀ (os : List Text) (l : List (Text × Citation)),
      os.foldl
        (fun acc oid =>
          if oid ∈ keysOf acc then acc.filter (fun e => decide (e.1 ≠ oid)) else acc) l
        = l.filter (fun e => decide (e.1 ∉ os)) := by
  intro os
  induction os with
  | nil =>
    intro l
    rw [List.foldl_nil]
    symm
    rw [List.filter_eq_self]
    intro e _
    simp
  | cons o os' ih =>
    intro l
    rw [List.foldl_cons]
    have hstep :
        (if o ∈ keysOf l then l.filter (fun e => decide (e.1 ≠ o)) else l)
          = l.filter (fun e => decide (e.1 ≠ o)) := by
      by_cases hm : o ∈ keysOf l
      · rw [if_pos hm]
      · rw [if_neg hm]
        symm
        rw [List.filter_eq_self]
        intro e he
        simp only [decide_eq_true_eq]
        intro hc
        exact hm (hc ▸ List.mem_map_of_mem Prod.fst he)
    rw [hstep, ih, List.filter_filter]
    apply List.filter_congr
    intro e _
    by_cases h1 : e.1 = o
    · subst h1
      simp
    · by_cases h2 : e.1 ∈ os' <;> simp [h1, h2]

/-- The citations dict of `auto_correct_summary`'s result: every entry of the
input dict, with recorded corrections applied, keeping exactly the keys that
are referenced in the prose. -/
theorem autoCorrect_citations_char (pageIdx : List (Int × Text)) (s : Summary)
    (hnd : (keysOf s.citations).Nodup) :
    (autoCorrectSummary pageIdx s).citations =
      (s.citations.map (applyCorrection pageIdx)).filter
        (fun e => decide (e.1 ∈ extractCitationReferences s)) := by
  simp only [autoCorrectSummary, validateSummary]
  have hfc := foldl_corrections pageIdx s.citations [] (by simpa using hnd)
  rw [List.nil_append, List.nil_append] at hfc
  rw [hfc, foldl_orphan_filter]
  apply List.filter_congr
  intro e he
  have hkey : e.1 ∈ keysOf s.citations := by
    have h1 : e.1 ∈ keysOf (s.citations.map (applyCorrection pageIdx)) :=
      List.mem_map_of_mem Prod.fst he
    rwa [keysOf_map_applyCorrection] at h1
  by_cases hr : e.1 ∈ extractCitationReferences s
  · have h1 : e.1 ∉ (keysOf s.citations).filter
        (fun k => decide (k ∉ extractCitationReferences s)) := by
      rw [List.mem_filter]
      rintro ⟨-, hc⟩
      simp only [decide_eq_true_eq] at hc
      exact hc hr
    simp [h1, hr]
  · have h1 : e.1 ∈ (keysOf s.citations).filter
        (fun k => decide (k ∉ extractCitationReferences s)) := by
      rw [List.mem_filter]
      exact ⟨hkey, by simpa using hr⟩
    simp [h1, hr, hkey]

/-- `map f l = l` when `f` is the identity on every element of `l`. -/
theorem map_id_of_forall {α : Type} (l : List α) (f : α → α)
    (h : ∀ a ∈ l, f a = a) : l.map f = l := by
  induction l with
  | nil => rfl
  | cons a t ih =>
    rw [List.map_cons, h a (List.mem_cons_self _ _),
      ih fun b hb => h b (List.mem_cons_of_mem _ hb)]

theorem correctCitation_of_correctionFor {pageIdx : List (Int × Text)} {k : Text}
    {c c' : Citation} (h : correctionFor pageIdx k c = some c') :
    correctCitation pageIdx c = some c' := by
  rw [correctionFor] at h
  by_cases hv : (validateCitation pageIdx k c).is_valid
  · rw [if_pos hv] at h
    cases h
  · rwa [if_neg hv] at h

/-- The prose of a summary is untouched by `auto_correct_summary`, so the
citation markers it references are unchanged. -/
theorem autoCorrect_refs (pageIdx : List (Int × Text)) (s : Summary) :
    extractCitationReferences (autoCorrectSummary pageIdx s) =
      extractCitationReferences s := rfl

/-- C4: `auto_correct_summary` is idempotent — validating an already
auto-corrected summary records no further corrections and no orphans, and a
second `auto_correct_summary` leaves the citations dict unchanged
(citations dicts have unique keys, the `Nodup` hypothesis). -/
theorem autoCorrect_idempotent (pages : List Page) (s : Summary)
    (hnd : (keysOf s.citations).Nodup) :
    (validateSummary (buildPageIndex pages)
        (autoCorrectSummary (buildPageIndex pages) s)).corrected_citations = [] ∧
    (validateSummary (buildPageIndex pages)
        (autoCorrectSummary (buildPageIndex pages) s)).orphaned_citations = [] ∧
    (autoCorrectSummary (buildPageIndex pages)
        (autoCorrectSummary (buildPageIndex pages) s)).citations =
      (autoCorrectSummary (buildPageIndex pages) s).citations := by
  have hidx : (keysOf (buildPageIndex pages)).Nodup := buildPageIndex_keys_nodup pages
  have hchar := autoCorrect_citations_char (buildPageIndex pages) s hnd
  have hrefs := autoCorrect_refs (buildPageIndex pages) s
  have hentry : ∀ e ∈ (autoCorrectSummary (buildPageIndex pages) s).citations,
      correctionFor (buildPageIndex pages) e.1 e.2 = none := by
    intro e he
    rw [hchar, List.mem_filter] at he
    obtain ⟨hmap, -⟩ := he
    rw [List.mem_map] at hmap
    obtain ⟨e0, he0, heq⟩ := hmap
    cases hcf : correctionFor (buildPageIndex pages) e0.1 e0.2 with
    | none =>
      have heq2 : e = (e0.1, e0.2) := by
        rw [← heq]
        simp [applyCorrection, hcf]
      rw [heq2]
      exact hcf
    | some c' =>
      have heq2 : e = (e0.1, c') := by
        rw [← heq]
        simp [applyCorrection, hcf]
      rw [heq2]
      exact correctionFor_of_corrected hidx (correctCitation_of_correctionFor hcf)
  have hkeysref : ∀ k ∈ keysOf (autoCorrectSummary (buildPageIndex pages) s).citations,
      k ∈ extractCitationReferences s := by
    intro k hk
    rw [hchar] at hk
    rw [keysOf, List.mem_map] at hk
    obtain ⟨e, he, rfl⟩ := hk
    rw [List.mem_filter] at he
    simpa using he.2
  have hcorr2 : correctionsOf (buildPageIndex pages)
      (autoCorrectSummary (buildPageIndex pages) s).citations = [] := by
    rw [correctionsOf, List.filterMap_eq_nil]
    intro e he
    rw [hentry e he]
    rfl
  have hndA : (keysOf (autoCorrectSummary (buildPageIndex pages) s).citations).Nodup := by
    rw [hchar]
    have h2 : List.Sublist
        (keysOf ((s.citations.map (applyCorrection (buildPageIndex pages))).filter
          (fun e => decide (e.1 ∈ extractCitationReferences s))))
        (keysOf (s.citations.map (applyCorrection (buildPageIndex pages)))) :=
      (List.filter_sublist _).map Prod.fst
    rw [keysOf_map_applyCorrection] at h2
    exact List.Nodup.sublist h2 hnd
  refine ⟨?_, ?_, ?_⟩
  · simp only [validateSummary]
    exact hcorr2
  · simp only [validateSummary]
    rw [hrefs, List.filter_eq_nil]
    intro k hk
    simpa using hkeysref k hk
  · rw [autoCorrect_citations_char (buildPageIndex pages) _ hndA]
    have hmapid : (autoCorrectSummary (buildPageIndex pages) s).citations.map
        (applyCorrection (buildPageIndex pages)) =
        (autoCorrectSummary (buildPageIndex pages) s).citations := by
      apply map_id_of_forall
      intro e he
      rw [applyCorrection, hentry e he]
      rfl
    rw [hmapid, List.filter_eq_self]
    intro e he
    rw [hrefs]
    simpa using hkeysref e.1 (List.mem_map_of_mem Prod.fst he)

/-- The pages of the C4 witness document. -/
def exPagesC4 : List Page := [⟨1, "mmmmmmmm".data⟩, ⟨2, "xy zq wv kj ab".data⟩]

/-- The C4 witness summary: one referenced citation whose text sits on the
other page. -/
def exSummaryC4 : Summary :=
  { executive := "B {{cite:001}}.".data, sections := [],
    citations := [("001".data,
      { page := 1, text := "zq wv kj".data, type := "t".data, confidence := ⟨1, 1⟩ })] }

/-- Witness for `autoCorrect_idempotent` at a concrete summary whose single
citation gets page-corrected on the first pass. -/
theorem autoCorrect_idempotent_witness :
    (keysOf exSummaryC4.citations).Nodup ∧
    ((validateSummary (buildPageIndex exPagesC4)
        (autoCorrectSummary (buildPageIndex exPagesC4) exSummaryC4)).corrected_citations = [] ∧
    (validateSummary (buildPageIndex exPagesC4)
        (autoCorrectSummary (buildPageIndex exPagesC4) exSummaryC4)).orphaned_citations = [] ∧
    (autoCorrectSummary (buildPageIndex exPagesC4)
        (autoCorrectSummary (buildPageIndex exPagesC4) exSummaryC4)).citations =
      (autoCorrectSummary (buildPageIndex exPagesC4) exSummaryC4).citations) :=
  ⟨by decide, autoCorrect_idempotent exPagesC4 exSummaryC4 (by decide)⟩

/-! ## Claim C3: verifiability of citations kept by `auto_correct_summary` -/

/-- The page list of the C3 counterexample document. -/
def exPagesC3 : List Page := [⟨1, "ab. cd".data⟩]

/-- The C3 counterexample citation: its 20-character text appears nowhere in
the document. -/
def exCitC3 : Citation :=
  { page := 1, text := "qqqqq qqqqq qqqqq qq".data, type := "provision".data,
    confidence := ⟨6, 10⟩ }

/-- The C3 counterexample summary: the unverifiable citation is referenced
by the prose (so it is not removed as an orphan). -/
def exSummaryC3 : Summary :=
  { executive := "A {{cite:001}}.".data, sections := [],
    citations := [("001".data, exCitC3)] }

set_option maxRecDepth 100000 in
/-- C3, counterexample: `auto_correct_summary` keeps a citation whose text
is neither an exact substring of its page nor fuzzy-matched at 80 or above —
the entry survives unchanged and unverifiable. -/
theorem autoCorrect_keeps_unverifiable :
    pyLookup (autoCorrectSummary (buildPageIndex exPagesC3) exSummaryC3).citations
      "001".data = some exCitC3 ∧
    pyLookup (buildPageIndex exPagesC3) exCitC3.page = some "ab. cd".data ∧
    containsSub exCitC3.text "ab. cd".data = false ∧
    ¬ ((80 : Score) ≤ fuzzyMatchInText exCitC3.text "ab. cd".data) := by
  refine ⟨by decide, by decide, by decide, by decide⟩

/-- C3, amended: every citation entry remaining after `auto_correct_summary`
is either an original entry of the input summary kept unchanged, or the
output of `_correct_citation` on the original entry with the same key —
entries that are invalid but uncorrectable persist, with no verifiability
guarantee. -/
theorem autoCorrect_citations_provenance (pages : List Page) (s : Summary)
    (hnd : (keysOf s.citations).Nodup) :
    ∀ e ∈ (autoCorrectSummary (buildPageIndex pages) s).citations,
      ∃ c0, (e.1, c0) ∈ s.citations ∧
        (e.2 = c0 ∨ correctCitation (buildPageIndex pages) c0 = some e.2) := by
  intro e he
  rw [autoCorrect_citations_char (buildPageIndex pages) s hnd, List.mem_filter] at he
  obtain ⟨hmap, -⟩ := he
  rw [List.mem_map] at hmap
  obtain ⟨e0, he0, heq⟩ := hmap
  refine ⟨e0.2, ?_, ?_⟩
  · have : e.1 = e0.1 := by rw [← heq]; rfl
    rw [this]
    exact he0
  · cases hcf : correctionFor (buildPageIndex pages) e0.1 e0.2 with
    | none =>
      left
      rw [← heq]
      simp [applyCorrection, hcf]
    | some c' =>
      right
      have h2 : e.2 = c' := by rw [← heq]; simp [applyCorrection, hcf]
      rw [h2]
      exact correctCitation_of_correctionFor hcf

set_option maxRecDepth 100000 in
/-- Witness for `autoCorrect_citations_provenance` at the C3 input: the
surviving entry is the original one. -/
theorem autoCorrect_citations_provenance_witness :
    (keysOf exSummaryC3.citations).Nodup ∧
    (("001".data, exCitC3) ∈
        (autoCorrectSummary (buildPageIndex exPagesC3) exSummaryC3).citations ∧
      ∃ c0, (("001".data, exCitC3).1, c0) ∈ exSummaryC3.citations ∧
        (("001".data, exCitC3).2 = c0 ∨
          correctCitation (buildPageIndex exPagesC3) c0 = some ("001".data, exCitC3).2)) := by
  refine ⟨by decide, ?_, ?_⟩
  · decide
  · exact autoCorrect_citations_provenance exPagesC3 exSummaryC3 (by decide)
      ("001".data, exCitC3) (by decide)

/-! ## Claim C5: `suggested_page` and page rewriting -/

/-- The C5 counterexample citation: claims page 1 (which exists) while its
text sits verbatim on page 2. -/
def exCitC5 : Citation :=
  { page := 1, text := "zq wv kj".data, type := "t".data, confidence := ⟨1, 1⟩ }

set_option maxRecDepth 100000 in
/-- C5, counterexample: when the claimed page exists in the page index but
the text is found (with score above 80) on a different page, the validator
flags the citation invalid *without* `suggested_page` — the claim's
`suggested_page` behaviour only happens for pages missing from the index —
while `auto_correct_summary`'s `_correct_citation` does rewrite the page. -/
theorem validate_no_suggested_page_on_existing_page :
    (validateCitation (buildPageIndex exPagesC4) "001".data exCitC5).is_valid = false ∧
    (validateCitation (buildPageIndex exPagesC4) "001".data exCitC5).suggested_page = none ∧
    findTextInDocument (buildPageIndex exPagesC4) exCitC5.text = some 2 ∧
    (2 : Int) ≠ exCitC5.page ∧
    (80 : Score) < fuzzyMatchInText exCitC5.text "xy zq wv kj ab".data ∧
    correctCitation (buildPageIndex exPagesC4) exCitC5 =
      some { exCitC5 with page := 2, corrected := true } := by
  refine ⟨by decide, by decide, by decide, by decide, by decide, by decide⟩

/-- C5, amended: `suggested_page` is set to the discovered page only when
the claimed page is absent from the page index (and the discovered page is
nonzero); when the claimed page exists, no `suggested_page` is ever set;
`_correct_citation` rewrites the page to the discovered page whenever it
differs from the claimed one (and is nonzero). -/
theorem validateCitation_suggested_page_spec (pageIdx : List (Int × Text)) :
    (∀ k c pageText, pyLookup pageIdx c.page = some pageText →
      (validateCitation pageIdx k c).suggested_page = none) ∧
    (∀ k c p, c.text ≠ [] → pyLookup pageIdx c.page = none →
      findTextInDocument pageIdx c.text = some p → p ≠ 0 →
      (validateCitation pageIdx k c).suggested_page = some p ∧
      (validateCitation pageIdx k c).is_valid = false) ∧
    (∀ c p, c.text ≠ [] → findTextInDocument pageIdx c.text = some p → p ≠ 0 →
      p ≠ c.page → correctCitation pageIdx c = some { c with page := p, corrected := true }) := by
  refine ⟨?_, ?_, ?_⟩
  · intro k c pageText hlk
    by_cases htext : c.text = []
    · simp [validateCitation, htext]
    · by_cases hc : containsSub c.text pageText = true
      · simp [validateCitation, htext, hlk, hc]
      · by_cases hs : (80 : Score) < fuzzyMatchInText c.text pageText
        · simp [validateCitation, htext, hlk, hc, hs]
        · simp [validateCitation, htext, hlk, hc, hs]
  · intro k c p htext hlk hfind hp
    constructor
    · simp [validateCitation, htext, hlk, hfind, hp]
    · simp [validateCitation, htext, hlk, hfind, hp]
  · intro c p htext hfind hp hpg
    rw [correctCitation, if_neg htext]
    simp only [hfind]
    rw [if_pos ⟨hp, hpg⟩]

set_option maxRecDepth 100000 in
/-- Witness for `validateCitation_suggested_page_spec`: a citation claiming
an absent page whose text is found verbatim on page 2. -/
theorem validateCitation_suggested_page_spec_witness :
    ({ page := 5, text := "zq wv kj".data, type := "t".data,
       confidence := ⟨1, 1⟩ } : Citation).text ≠ [] ∧
    pyLookup (buildPageIndex exPagesC4) (5 : Int) = none ∧
    findTextInDocument (buildPageIndex exPagesC4) "zq wv kj".data = some 2 ∧
    (validateCitation (buildPageIndex exPagesC4) "001".data
      { page := 5, text := "zq wv kj".data, type := "t".data,
        confidence := ⟨1, 1⟩ }).suggested_page = some 2 ∧
    correctCitation (buildPageIndex exPagesC4)
      { page := 5, text := "zq wv kj".data, type := "t".data, confidence := ⟨1, 1⟩ } =
      some { page := 2, text := "zq wv kj".data, type := "t".data,
             confidence := ⟨1, 1⟩, corrected := true } := by
  refine ⟨by decide, by decide, by decide, ?_, ?_⟩
  · exact ((validateCitation_suggested_page_spec (buildPageIndex exPagesC4)).2.1
      "001".data _ 2 (by decide) (by decide) (by decide) (by decide)).1
  · exact (validateCitation_suggested_page_spec (buildPageIndex exPagesC4)).2.2
      _ 2 (by decide) (by decide) (by decide) (by decide)

/-! ## Claim C10: `auto_correct_summary` never mutates its argument -/

theorem tracedFold_corrections (corrs : List (Text × Citation × Citation)) :
    ∀ (a b : Summary),
      corrs.foldl
        (fun (st : Summary × Summary) corr =>
          (st.1, { st.2 with citations := assocSet st.2.citations corr.1 corr.2.2 }))
        (a, b) =
      (a, { b with citations := corrs.foldl (fun acc corr => assocSet acc corr.1 corr.2.2) b.citations }) := by
  induction corrs with
  | nil => intro a b; simp
  | cons corr t ih =>
    intro a b
    rw [List.foldl_cons, List.foldl_cons, ih]

theorem tracedFold_orphans (os : List Text) :
    ∀ (a b : Summary),
      os.foldl
        (fun (st : Summary × Summary) oid =>
          let cits :=
            if oid ∈ keysOf st.2.citations then
              st.2.citations.filter (fun e => decide (e.1 ≠ oid))
            else st.2.citations
          (st.1, { st.2 with citations := cits }))
        (a, b) =
      (a, { b with citations := os.foldl (fun acc oid => if oid ∈ keysOf acc then acc.filter (fun e => decide (e.1 ≠ oid)) else acc) b.citations }) := by
  induction os with
  | nil => intro a b; simp
  | cons o t ih =>
    intro a b
    rw [List.foldl_cons, List.foldl_cons, ih]

/-- C10: `auto_correct_summary` leaves the summary object it receives
completely unchanged — the deep copy receives every correction, orphan
deletion and metadata write, and the returned value is exactly
`auto_correct_summary`'s result. -/
theorem autoCorrect_frame (pageIdx : List (Int × Text)) (s : Summary) :
    (autoCorrectTraced pageIdx s).1 = s ∧
    (autoCorrectTraced pageIdx s).2 = autoCorrectSummary pageIdx s := by
  obtain ⟨ex, secs, cits, mv⟩ := s
  rw [autoCorrectTraced]
  simp only [tracedFold_corrections, tracedFold_orphans]
  refine ⟨?_, ?_⟩
  · first
      | rfl
      | trivial
  · first
      | rfl
      | trivial

/-! ## Claim C8: page coverage of `chunk_document` -/

/-- Pointwise-equal functions map lists equally. -/
theorem map_congr_mem {α β : Type} (l : List α) (f g : α → β)
    (h : ∀ a ∈ l, f a = g a) : l.map f = l.map g := by
  induction l with
  | nil => rfl
  | cons a t ih =>
    rw [List.map_cons, List.map_cons, h a (List.mem_cons_self _ _),
      ih fun b hb => h b (List.mem_cons_of_mem _ hb)]

theorem pageTagged_ne_nil (n : Int) (t : Text) : pageTagged n t ≠ [] := by
  rw [pageTagged]
  intro h
  rw [List.append_assoc, List.append_eq_nil] at h
  have h2 := h.2
  rw [List.append_eq_nil] at h2
  exact absurd h2.2 (by decide)

/-- The chunk built by `_create_chunk` records exactly the pages list it was
given. -/
theorem createChunk_pages (hashFn : Text → Int → Text) (text : Text) (pages : List Int)
    (sp : Int) (sc : Int) (ct : Text) (hd : List Text) :
    (createChunk hashFn text pages sp sc ct hd).pages = pages := rfl

/-- The coverage invariant for the `_chunk_by_pages` loop state. -/
def PInv (p : Int) (st : PagesState) : Prop :=
  (∃ c ∈ st.chunks, p ∈ c.pages) ∨ p ∈ st.curPages

theorem pagesStep_textInv (cfg : ChunkerCfg) (hashFn : Text → Int → Text)
    (st : PagesState) (pg : Page) :
    (pagesStep cfg hashFn st pg).curText ≠ [] := by
  rw [pagesStep]
  by_cases h : st.curText.length + pg.text.length ≤ cfg.max_chunk_size
  · rw [if_pos h]
    intro hc
    rw [List.append_eq_nil] at hc
    exact pageTagged_ne_nil _ _ hc.2
  · rw [if_neg h]
    intro hc
    rw [List.append_eq_nil] at hc
    exact pageTagged_ne_nil _ _ hc.2

theorem pagesStep_mem (cfg : ChunkerCfg) (hashFn : Text → Int → Text)
    (st : PagesState) (pg : Page) (p : Int)
    (htext : st.curPages ≠ [] → st.curText ≠ [])
    (h : PInv p st ∨ p = pg.page_number) :
    PInv p (pagesStep cfg hashFn st pg) := by
  rw [pagesStep]
  by_cases hfit : st.curText.length + pg.text.length ≤ cfg.max_chunk_size
  · rw [if_pos hfit]
    rcases h with h | rfl
    · rcases h with h | h
      · exact Or.inl h
      · exact Or.inr (List.mem_append_left _ h)
    · exact Or.inr (List.mem_append_right _ (List.mem_singleton.mpr rfl))
  · rw [if_neg hfit]
    rcases h with h | rfl
    · rcases h with ⟨c, hc, hpc⟩ | h
      · refine Or.inl ⟨c, ?_, hpc⟩
        by_cases hct : st.curText ≠ []
        · rw [if_pos hct]
          exact List.mem_append_left _ hc
        · rw [if_neg hct]
          exact hc
      · have hne : st.curPages ≠ [] := fun hc => by rw [hc] at h; cases h
        have hct := htext hne
        refine Or.inl ⟨createChunk hashFn st.curText st.curPages st.curStartPage
          st.curStartChar "page".data [], ?_, ?_⟩
        · rw [if_pos hct]
          exact List.mem_append_right _ (List.mem_singleton.mpr rfl)
        · rw [createChunk_pages]
          exact h
    · exact Or.inr (List.mem_singleton.mpr rfl)

theorem pagesFold_spec (cfg : ChunkerCfg) (hashFn : Text → Int → Text) :
    ∀ (ps : List Page) (st : PagesState) (p : Int),
      (st.curPages ≠ [] → st.curText ≠ []) →
      (PInv p st ∨ p ∈ ps.map Page.page_number) →
      PInv p (ps.foldl (pagesStep cfg hashFn) st) ∧
      ((ps.foldl (pagesStep cfg hashFn) st).curPages ≠ [] →
        (ps.foldl (pagesStep cfg hashFn) st).curText ≠ []) := by
  intro ps
  induction ps with
  | nil =>
    intro st p htext h
    rw [List.foldl_nil]
    refine ⟨?_, htext⟩
    rcases h with h | h
    · exact h
    · simp at h
  | cons pg ps' ih =>
    intro st p htext h
    rw [List.foldl_cons]
    refine ih (pagesStep cfg hashFn st pg) p (fun _ => pagesStep_textInv cfg hashFn st pg) ?_
    rcases h with h | h
    · exact Or.inl (pagesStep_mem cfg hashFn st pg p htext (Or.inl h))
    · rw [List.map_cons, List.mem_cons] at h
      rcases h with h | h
      · exact Or.inl (pagesStep_mem cfg hashFn st pg p htext (Or.inr h))
      · exact Or.inr h

theorem chunkByPages_coverage (cfg : ChunkerCfg) (hashFn : Text → Int → Text)
    (pages : List Page) :
    ∀ pg ∈ pages, ∃ c ∈ chunkByPages cfg hashFn pages, pg.page_number ∈ c.pages := by
  intro pg hpg
  rw [chunkByPages]
  obtain ⟨hP, htext⟩ := pagesFold_spec cfg hashFn pages ⟨[], [], [], 1, 0, 0⟩
    pg.page_number (by intro h; simp at h)
    (Or.inr (List.mem_map_of_mem Page.page_number hpg))
  rcases hP with ⟨c, hc, hpc⟩ | h
  · exact ⟨c, List.mem_append_left _ hc, hpc⟩
  · have hne : (pages.foldl (pagesStep cfg hashFn) ⟨[], [], [], 1, 0, 0⟩).curPages ≠ [] :=
      fun hc => by rw [hc] at h; cases h
    have hct := htext hne
    refine ⟨createChunk hashFn
      (pages.foldl (pagesStep cfg hashFn) ⟨[], [], [], 1, 0, 0⟩).curText
      (pages.foldl (pagesStep cfg hashFn) ⟨[], [], [], 1, 0, 0⟩).curPages
      (pages.foldl (pagesStep cfg hashFn) ⟨[], [], [], 1, 0, 0⟩).curStartPage
      (pages.foldl (pagesStep cfg hashFn) ⟨[], [], [], 1, 0, 0⟩).curStartChar
      "page".data [], ?_, ?_⟩
    · rw [if_pos hct]
      exact List.mem_append_right _ (List.mem_singleton.mpr rfl)
    · rw [createChunk_pages]
      exact h

theorem addContextWindows_pages (cs : List DocumentChunk) :
    (addContextWindows cs).map DocumentChunk.pages = cs.map DocumentChunk.pages := by
  rw [addContextWindows, List.map_map]
  have h1 : cs.map DocumentChunk.pages = (cs.enum.map Prod.snd).map DocumentChunk.pages := by
    rw [List.enum_map_snd]
  rw [h1, List.map_map]
  apply map_congr_mem
  intro ic _
  simp only [Function.comp_apply]
  by_cases h1 : 0 < ic.1
  · by_cases h2 : ic.1 + 1 < cs.length
    · simp only [h1, if_pos, h2]
    · simp only [h1, if_pos, h2, if_neg, if_false]
  · by_cases h2 : ic.1 + 1 < cs.length
    · simp only [h1, if_neg, if_false, h2, if_pos]
    · simp only [h1, h2, if_neg, if_false]

theorem addContextWindows_memPages (cs : List DocumentChunk) (p : Int)
    (h : ∃ c ∈ cs, p ∈ c.pages) : ∃ c ∈ addContextWindows cs, p ∈ c.pages := by
  obtain ⟨c, hc, hpc⟩ := h
  have h1 : c.pages ∈ (addContextWindows cs).map DocumentChunk.pages := by
    rw [addContextWindows_pages]
    exact List.mem_map_of_mem DocumentChunk.pages hc
  rw [List.mem_map] at h1
  obtain ⟨c', hc', heq⟩ := h1
  exact ⟨c', hc', heq ▸ hpc⟩

theorem splitStep_pages (cfg : ChunkerCfg) (hashFn : Text → Int → Text)
    (c : DocumentChunk) :
    ∀ (paras : List Text) (acc : List DocumentChunk × Text),
      (∀ d ∈ acc.1, d.pages = c.pages) →
      ∀ d ∈ (paras.foldl (splitStep cfg hashFn c) acc).1, d.pages = c.pages := by
  intro paras
  induction paras with
  | nil => intro acc hacc d hd; exact hacc d hd
  | cons para pt ih =>
    intro acc hacc d hd
    rw [List.foldl_cons] at hd
    refine ih _ ?_ d hd
    rw [splitStep]
    by_cases hfit : acc.2.length + para.length ≤ cfg.max_chunk_size
    · rw [if_pos hfit]
      exact hacc
    · rw [if_neg hfit]
      by_cases hne : acc.2 ≠ []
      · simp only [if_pos hne]
        intro d' hd'
        rcases List.mem_append.mp hd' with hmem | hmem
        · exact hacc d' hmem
        · rw [List.mem_singleton.mp hmem, createChunk_pages]
      · simp only [if_neg hne]
        exact hacc

theorem splitLargeChunk_subPages (cfg : ChunkerCfg) (hashFn : Text → Int → Text)
    (c : DocumentChunk) :
    ∃ c' ∈ splitLargeChunk cfg hashFn c, c'.pages = c.pages := by
  rw [splitLargeChunk]
  simp only []
  generalize hr : (paraSplit c.text).foldl (splitStep cfg hashFn c) ([], []) = r
  have hall : ∀ d ∈ r.1, d.pages = c.pages := by
    rw [← hr]
    exact splitStep_pages cfg hashFn c _ _ (by intro d hd; cases hd)
  by_cases hrem : r.2 ≠ []
  · rw [if_pos hrem]
    rw [if_neg (by
      intro hc0
      rw [List.append_eq_nil] at hc0
      cases hc0.2)]
    exact ⟨createChunk hashFn r.2 c.pages c.start_page
      (c.start_char + c.text.length - r.2.length) "overflow".data c.section_headers,
      List.mem_append_right _ (List.mem_singleton.mpr rfl), createChunk_pages _ _ _ _ _ _ _⟩
  · rw [if_neg hrem]
    by_cases hempty : r.1 = []
    · rw [if_pos hempty]
      exact ⟨c, List.mem_singleton.mpr rfl, rfl⟩
    · rw [if_neg hempty]
      obtain ⟨d, hd⟩ := List.exists_mem_of_ne_nil _ hempty
      exact ⟨d, hd, hall d hd⟩

theorem sizeCheckStep_memPages (cfg : ChunkerCfg) (hashFn : Text → Int → Text)
    (acc : List DocumentChunk) (c : DocumentChunk) (p : Int)
    (h : (∃ d ∈ acc, p ∈ d.pages) ∨ p ∈ c.pages) :
    ∃ d ∈ sizeCheckStep cfg hashFn acc c, p ∈ d.pages := by
  rw [sizeCheckStep]
  by_cases hsz : 3 * cfg.max_chunk_size < 2 * c.text.length
  · rw [if_pos hsz]
    rcases h with ⟨d, hd, hpd⟩ | h
    · exact ⟨d, List.mem_append_left _ hd, hpd⟩
    · obtain ⟨c', hc', heq⟩ := splitLargeChunk_subPages cfg hashFn c
      exact ⟨c', List.mem_append_right _ hc', heq ▸ h⟩
  · rw [if_neg hsz]
    rcases h with ⟨d, hd, hpd⟩ | h
    · exact ⟨d, List.mem_append_left _ hd, hpd⟩
    · exact ⟨c, List.mem_append_right _ (List.mem_singleton.mpr rfl), h⟩

theorem mergeChunks_mem_pages (prev c : DocumentChunk) (p : Int)
    (h : p ∈ prev.pages ∨ p ∈ c.pages) : p ∈ (mergeChunks prev c).pages := by
  rw [mergeChunks]
  simp only []
  rcases h with h | h
  · exact List.mem_append_left _ h
  · by_cases hp : p ∈ prev.pages
    · exact List.mem_append_left _ hp
    · refine List.mem_append_right _ ?_
      rw [List.mem_filter]
      exact ⟨h, by simpa using hp⟩

theorem validateStep_memPages (cfg : ChunkerCfg) (hashFn : Text → Int → Text)
    (acc : List DocumentChunk) (c : DocumentChunk) (p : Int)
    (h : (∃ d ∈ acc, p ∈ d.pages) ∨ p ∈ c.pages) :
    ∃ d ∈ validateStep cfg hashFn acc c, p ∈ d.pages := by
  rw [validateStep]
  by_cases hcond : c.text.length < cfg.min_chunk_size ∧ acc ≠ []
  · rw [if_pos hcond]
    cases hlast : acc.getLast? with
    | none => exact sizeCheckStep_memPages cfg hashFn acc c p h
    | some prev =>
      simp only []
      by_cases hsz : 10 * (prev.text.length + c.text.length) ≤ 12 * cfg.max_chunk_size
      · rw [if_pos hsz]
        have hprev : prev = acc.getLast hcond.2 := by
          rw [List.getLast?_eq_getLast acc hcond.2] at hlast
          cases hlast
          rfl
        have hdec : acc.dropLast ++ [acc.getLast hcond.2] = acc :=
          List.dropLast_append_getLast hcond.2
        rcases h with ⟨d, hd, hpd⟩ | h
        · rw [← hdec] at hd
          rcases List.mem_append.mp hd with hmem | hmem
          · exact ⟨d, List.mem_append_left _ hmem, hpd⟩
          · refine ⟨mergeChunks prev c,
              List.mem_append_right _ (List.mem_singleton.mpr rfl), ?_⟩
            rw [List.mem_singleton.mp hmem] at hpd
            rw [← hprev] at hpd
            exact mergeChunks_mem_pages prev c p (Or.inl hpd)
        · exact ⟨mergeChunks prev c,
            List.mem_append_right _ (List.mem_singleton.mpr rfl),
            mergeChunks_mem_pages prev c p (Or.inr h)⟩
      · rw [if_neg hsz]
        exact sizeCheckStep_memPages cfg hashFn acc c p h
  · rw [if_neg hcond]
    exact sizeCheckStep_memPages cfg hashFn acc c p h

theorem validateChunks_memPages (cfg : ChunkerCfg) (hashFn : Text → Int → Text) :
    ∀ (cs acc : List DocumentChunk) (p : Int),
      ((∃ d ∈ acc, p ∈ d.pages) ∨ ∃ c ∈ cs, p ∈ c.pages) →
      ∃ d ∈ cs.foldl (validateStep cfg hashFn) acc, p ∈ d.pages := by
  intro cs
  induction cs with
  | nil =>
    intro acc p h
    rw [List.foldl_nil]
    rcases h with h | ⟨c, hc, -⟩
    · exact h
    · cases hc
  | cons c cs' ih =>
    intro acc p h
    rw [List.foldl_cons]
    refine ih _ p ?_
    rcases h with h | ⟨c', hc', hpc'⟩
    · exact Or.inl (validateStep_memPages cfg hashFn acc c p (Or.inl h))
    · rw [List.mem_cons] at hc'
      rcases hc' with rfl | hc'
      · exact Or.inl (validateStep_memPages cfg hashFn acc c' p (Or.inr hpc'))
      · exact Or.inr ⟨c', hc', hpc'⟩

/-- C8, amended (the part that holds): in the page-accumulation fallback
mode — taken whenever the structure analysis finds fewer than 3 section
matches — every page number of the input appears in the pages list of some
chunk returned by `chunk_document`. -/
theorem chunkDocument_fallback_coverage (cfg : ChunkerCfg)
    (hashFn : Text → Int → Text) (M : Text → List (Nat × Nat)) (pages : List Page)
    (hm : analyzeHasSections M pages = false) :
    ∀ pg ∈ pages, ∃ c ∈ chunkDocument cfg hashFn M pages, pg.page_number ∈ c.pages := by
  intro pg hpg
  rw [chunkDocument]
  simp only [hm, Bool.false_eq_true, if_false, validateChunks]
  obtain ⟨c, hc, hpc⟩ := chunkByPages_coverage cfg hashFn pages pg hpg
  obtain ⟨c', hc', hpc'⟩ := addContextWindows_memPages _ pg.page_number ⟨c, hc, hpc⟩
  exact validateChunks_memPages cfg hashFn _ [] pg.page_number (Or.inr ⟨c', hc', hpc'⟩)

/-- The two-page C8 counterexample document: page 1 has no section marker,
page 2 opens with three `WHEREAS` section markers. -/
def exPagesC8 : List Page :=
  [⟨1, "alpha beta gamma".data⟩,
   ⟨2, "WHEREAS the parties agree\nWHEREAS more\nWHEREAS again".data⟩]

/-- The chunk-id hash is irrelevant to page coverage. -/
def exHashC8 : Text → Int → Text := fun _ _ => []

set_option maxRecDepth 100000 in
/-- C8, counterexample: in section-aware mode the line
`current_pages = [page_num] if page_num not in current_pages else
current_pages` discards the accumulated pages list, so on this two-page
document (section chunking active: 3 matches) the single produced chunk
lists only page 2 — page 1 appears in no chunk's pages even though its text
is inside the chunk. -/
theorem sectionChunking_drops_page :
    analyzeHasSections matchWhereas exPagesC8 = true ∧
    (1 : Int) ∈ exPagesC8.map Page.page_number ∧
    (chunkDocument defaultCfg exHashC8 matchWhereas exPagesC8).map DocumentChunk.pages
      = [[2]] := by
  refine ⟨by decide, by decide, by decide⟩

/-- Witness for `chunkDocument_fallback_coverage` on a one-page document
with no section matches. -/
theorem chunkDocument_fallback_coverage_witness :
    analyzeHasSections matchWhereas [(⟨1, "alpha beta".data⟩ : Page)] = false ∧
    ∃ c ∈ chunkDocument defaultCfg exHashC8 matchWhereas
      [(⟨1, "alpha beta".data⟩ : Page)], (1 : Int) ∈ c.pages :=
  ⟨by decide,
    chunkDocument_fallback_coverage defaultCfg exHashC8 matchWhereas
      [(⟨1, "alpha beta".data⟩ : Page)] (by decide) ⟨1, "alpha beta".data⟩
      (List.mem_singleton.mpr rfl)⟩

/-- Witness instantiating `deduplicateFacts_nodup_first_idem` at a concrete
fact list. -/
theorem deduplicateFacts_nodup_first_idem_witness :
    ((deduplicateFacts [exFactA, exFactA]).Pairwise
      fun a b => normText a.fact ≠ normText b.fact) ∧
    List.Sublist (deduplicateFacts [exFactA, exFactA]) [exFactA, exFactA] ∧
    (∀ x, x ∈ deduplicateFacts [exFactA, exFactA] ↔
      ∃ l1 l2, [exFactA, exFactA] = l1 ++ x :: l2 ∧
        ∀ y ∈ l1, normText y.fact ≠ normText x.fact) ∧
    deduplicateFacts (deduplicateFacts [exFactA, exFactA]) =
      deduplicateFacts [exFactA, exFactA] :=
  deduplicateFacts_nodup_first_idem [exFactA, exFactA]

/-- Witness instantiating `rankFactsByImportance_spec` at a concrete fact
list. -/
theorem rankFactsByImportance_spec_witness :
    (rankFactsByImportance [exFactB]).1 = [exFactB].map scaleFact ∧
    ((rankFactsByImportance [exFactB]).2.Perm ([exFactB].map scaleFact)) ∧
    ((rankFactsByImportance [exFactB]).2.Chain' fun a b => b.confidence ≤ a.confidence) :=
  rankFactsByImportance_spec [exFactB]

/-- Witness instantiating `autoCorrect_frame` at a concrete summary. -/
theorem autoCorrect_frame_witness :
    (autoCorrectTraced (buildPageIndex exPagesC1) exSummaryC1).1 = exSummaryC1 ∧
    (autoCorrectTraced (buildPageIndex exPagesC1) exSummaryC1).2 =
      autoCorrectSummary (buildPageIndex exPagesC1) exSummaryC1 :=
  autoCorrect_frame (buildPageIndex exPagesC1) exSummaryC1
